import Mathlib

/-!
# Request queue, scheduler and worker discipline of `src/request.c`

A shallow embedding of the bounded request buffer of the web server:
the intrusive singly linked list `req_head` / `req_tail` / `req_count`,
the three scheduling policies of `pick_request`, the enqueue critical
section of `request_handle`, the worker loop body of
`thread_request_serve_static`, and the admission checks of `request_handle`.

The heap is explicit: a `request_node *` is an address, `NULL` is `none`,
and every pointer dereference of the C code is a lookup that can fault.
-/

set_option autoImplicit false

namespace OSProj3

/-! ## Data model -/

/-- An address of a `request_node`; the C `NULL` is `none : Option Ptr`. -/
abbrev Ptr := Nat

/-- The C `struct request_node`. The character buffers are kept as the strings
they hold; `file_size` is a `size_t`, `arrival` a `time_t`. The code only
compares two file sizes and subtracts two clock readings, neither of which
overflows, so both fields are kept as mathematical integers. -/
structure request_node where
  fd : Int
  method : List Char
  uri : List Char
  version : List Char
  filename : List Char
  cgiargs : List Char
  file_size : Nat
  arrival : Int
  next : Option Ptr
deriving DecidableEq

/-- The heap of allocated request nodes. -/
abbrev Mem := Ptr → Option request_node

/-- The global variables of `request.c` that the buffer consists of, with the
heap they point into. `req_sem` is the value of the counting semaphore. -/
structure State where
  mem : Mem
  req_head : Option Ptr
  req_tail : Option Ptr
  req_count : Int
  req_sem : Nat

/-- The value of `#define AGING_THRESHOLD 10`. -/
def AGING_THRESHOLD : Int := 10

/-- The ways an execution of the C code stops without a result. `fuel` is not a
behaviour of the program: it is the loop bound of the embedding running out. -/
inductive Fault where
  | null_deref
  | dangling
  | div_by_zero
  | fuel
deriving DecidableEq

/-- The C expression `*p` for a node pointer `p`. -/
def deref (mem : Mem) (p : Option Ptr) : Except Fault request_node :=
  match p with
  | none => .error .null_deref
  | some a =>
    match mem a with
    | none => .error .dangling
    | some n => .ok n

/-- The C assignment `p->next = v` (`p` has been dereferenced before). -/
def set_next (mem : Mem) (a : Ptr) (v : Option Ptr) : Mem :=
  fun b => if b = a then (mem a).map (fun n => { n with next := v }) else mem b

/-! ## `pick_request` -/

/-- The `scheduling_algo == 0` branch of `pick_request` (lines 58-63). -/
def pick_fifo (s : State) : Except Fault (Option Ptr × State) := do
  let selected := s.req_head
  let new_head ← match s.req_head with
    | none => pure none
    | some a => do
      let n ← deref s.mem (some a)
      pure n.next
  let s1 := { s with req_head := new_head }
  let s2 := if new_head = none then { s1 with req_tail := none } else s1
  pure (selected, s2)

/-- The `while (cur != NULL)` loop of the SFF branch (lines 71-80). The state of
the loop is `cur`, `prev`, `selected`, `selected_prev`; the result is the final
`selected` and `selected_prev`. The second disjunct of the `||` is evaluated
only when the first is false, as in C. -/
def sff_scan (mem : Mem) (now : Int) :
    Nat → Option Ptr → Option Ptr → Option Ptr → Option Ptr →
      Except Fault (Option Ptr × Option Ptr)
  | _, none, _, selected, selected_prev => .ok (selected, selected_prev)
  | 0, some _, _, _, _ => .error .fuel
  | fuel + 1, some c, prev, selected, selected_prev => do
    let cn ← deref mem (some c)
    let take ←
      if now - cn.arrival ≥ AGING_THRESHOLD then pure true
      else do
        let sn ← deref mem selected
        pure (decide (cn.file_size < sn.file_size))
    if take then sff_scan mem now fuel cn.next (some c) (some c) prev
    else sff_scan mem now fuel cn.next (some c) selected selected_prev

/-- The removal of the selected node that ends the SFF and the RANDOM branch
(lines 82-88 and 106-111). -/
def unlink (s : State) (selected prev : Option Ptr) : Except Fault State := do
  let sel ← deref s.mem selected
  let s1 ← match prev with
    | none => pure { s with req_head := sel.next }
    | some a => do
      let _ ← deref s.mem (some a)
      pure { s with mem := set_next s.mem a sel.next }
  pure (if selected = s.req_tail then { s1 with req_tail := prev } else s1)

/-- The `scheduling_algo == 1` branch of `pick_request` (lines 65-89). -/
def pick_sff (now : Int) (fuel : Nat) (s : State) :
    Except Fault (Option Ptr × State) := do
  let (selected, selected_prev) ← sff_scan s.mem now fuel s.req_head none s.req_head none
  let s1 ← unlink s selected selected_prev
  pure (selected, s1)

/-- The counting loop `while (cur) { count++; cur = cur->next; }` of the RANDOM
branch (lines 94-97). A queue holds at most `buffer_max_size` nodes, an `int`,
so `count` does not overflow. -/
def count_loop (mem : Mem) : Nat → Option Ptr → Nat → Except Fault Nat
  | _, none, count => .ok count
  | 0, some _, _ => .error .fuel
  | fuel + 1, some c, count => do
    let cn ← deref mem (some c)
    count_loop mem fuel cn.next (count + 1)

/-- The loop `for (i = 0; i < r; i++) { prev = cur; cur = cur->next; }` of the
RANDOM branch (lines 101-104); the result is the final `cur` and `prev`. -/
def walk (mem : Mem) : Nat → Option Ptr → Option Ptr →
    Except Fault (Option Ptr × Option Ptr)
  | 0, cur, prev => .ok (cur, prev)
  | r + 1, cur, _ => do
    let cn ← deref mem cur
    walk mem r cn.next cur

/-- The `scheduling_algo == 2` branch of `pick_request` (lines 91-112); `rnd` is
the value returned by `rand()`, which is never negative. -/
def pick_random (rnd : Nat) (fuel : Nat) (s : State) :
    Except Fault (Option Ptr × State) := do
  let count ← count_loop s.mem fuel s.req_head 0
  if count = 0 then throw .div_by_zero
  let r := rnd % count
  let (selected, prev) ← walk s.mem r s.req_head none
  let s1 ← unlink s selected prev
  pure (selected, s1)

/-- The C function `pick_request`. `scheduling_algo` is the global policy
selector, `now` the value of `time(NULL)`, `rnd` the value of `rand()`; `fuel`
bounds the list traversals. The result is the returned pointer and the state
of the globals afterwards. -/
def pick_request (scheduling_algo : Int) (now : Int) (rnd : Nat) (fuel : Nat)
    (s : State) : Except Fault (Option Ptr × State) :=
  if scheduling_algo = 0 then pick_fifo s
  else if scheduling_algo = 1 then pick_sff now fuel s
  else if scheduling_algo = 2 then pick_random rnd fuel s
  else .ok (none, s)

/-! ## The enqueue critical section and the worker -/

/-- The list manipulation of `request_handle` under the lock, after the wait
loop (lines 329-336): `req_new` is linked behind `req_tail` and `req_count` is
incremented. -/
def enqueue (req_new : Ptr) (s : State) : Except Fault State :=
  match s.req_head with
  | none =>
    .ok { s with req_head := some req_new, req_tail := some req_new,
                 req_count := s.req_count + 1 }
  | some _ =>
    match s.req_tail with
    | none => .error .null_deref
    | some t =>
      match s.mem t with
      | none => .error .dangling
      | some _ =>
        .ok { s with mem := set_next s.mem t (some req_new), req_tail := some req_new,
                     req_count := s.req_count + 1 }

/-- The call `sem_post(&req_sem)`. -/
def sem_post (s : State) : State := { s with req_sem := s.req_sem + 1 }

/-- The critical section of the worker loop of `thread_request_serve_static`
(lines 229-233): `pick_request()` followed by the unconditional `req_count--`. -/
def dequeue (scheduling_algo : Int) (now : Int) (rnd : Nat) (fuel : Nat) (s : State) :
    Except Fault (Option Ptr × State) :=
  match pick_request scheduling_algo now rnd fuel s with
  | .error e => .error e
  | .ok (req, s1) => .ok (req, { s1 with req_count := s1.req_count - 1 })

/-! ## Operations run one after the other -/

/-- An operation on the queue by itself. `put p n`: a producer gets `p` from
`malloc`, fills it with the data of `n` and links it (lines 308-336);
`take`: the critical section of a worker (lines 229-233). -/
inductive Op where
  | put (p : Ptr) (n : request_node)
  | take (now : Int) (rnd fuel : Nat)

/-- The heap after `malloc` returned `p` and the node was filled, `next = NULL`. -/
def store_new (mem : Mem) (p : Ptr) (n : request_node) : Mem :=
  fun b => if b = p then some { n with next := none } else mem b

/-- The addresses linked by the operations `ops`, in that order. -/
def puts : List Op → List Ptr
  | [] => []
  | .put p _ :: ops => p :: puts ops
  | .take _ _ _ :: ops => puts ops

/-- The operations `ops` run one after the other from the state `s`, with no
regard to the capacity or the semaphore. The result is the state at the end
and the nodes the `take` operations returned, in that order. -/
def run (scheduling_algo : Int) : List Op → State → Except Fault (State × List Ptr)
  | [], s => .ok (s, [])
  | .put p n :: ops, s =>
    match enqueue p { s with mem := store_new s.mem p n } with
    | .error e => .error e
    | .ok s1 => run scheduling_algo ops s1
  | .take now rnd fuel :: ops, s =>
    match dequeue scheduling_algo now rnd fuel s with
    | .error e => .error e
    | .ok (req, s1) =>
      match run scheduling_algo ops s1 with
      | .error e => .error e
      | .ok (s2, out) => .ok (s2, req.toList ++ out)

/-! ## The queue a state represents -/

/-- The addresses met when following `next` from `p` until `q` is reached. -/
def Seg (mem : Mem) : Option Ptr → List Ptr → Option Ptr → Prop
  | p, [], q => p = q
  | p, a :: as, q => p = some a ∧
    match mem a with
    | none => False
    | some n => Seg mem n.next as q

instance Seg.dec (mem : Mem) :
    (p : Option Ptr) → (as : List Ptr) → (q : Option Ptr) → Decidable (Seg mem p as q)
  | p, [], q => by unfold Seg; exact inferInstance
  | p, a :: as, q => by
    unfold Seg
    cases h : mem a with
    | none => exact inferInstanceAs (Decidable (p = some a ∧ False))
    | some n =>
      have := Seg.dec mem n.next as q
      exact inferInstanceAs (Decidable (p = some a ∧ Seg mem n.next as q))

/-- The addresses met when following `next` from `p` up to `NULL`. -/
abbrev Chain (mem : Mem) (p : Option Ptr) (as : List Ptr) : Prop := Seg mem p as none

/-- The state holds the queue `q` (node addresses in queue order): `q` is the
chain from `req_head`, and `req_tail` points at its last node. -/
def Queue (s : State) (q : List Ptr) : Prop :=
  Chain s.mem s.req_head q ∧ s.req_tail = q.getLast?

instance Queue.dec (s : State) (q : List Ptr) : Decidable (Queue s q) := by
  unfold Queue; exact inferInstance

/-- The `file_size` field of the node at `a` (0 when `a` is not allocated). -/
def file_size_of (mem : Mem) (a : Ptr) : Nat :=
  match mem a with
  | none => 0
  | some n => n.file_size

/-- The time the node at `a` has waited at time `now`: `now - arrival`. -/
def age_of (mem : Mem) (now : Int) (a : Ptr) : Int :=
  match mem a with
  | none => 0
  | some n => now - n.arrival

/-- The final candidate of the SFF scan over the addresses `rest`, started with
the candidate `sel`: the scan of `sff_scan` read off the queue as a list. -/
def sff_choice (mem : Mem) (now : Int) : Ptr → List Ptr → Ptr
  | sel, [] => sel
  | sel, c :: cs =>
    if age_of mem now c ≥ AGING_THRESHOLD ∨ file_size_of mem c < file_size_of mem sel
    then sff_choice mem now c cs
    else sff_choice mem now sel cs

/-- The nodes keep everything but their `next` field from `mem` to `mem2`. -/
def SameData (mem mem2 : Mem) : Prop :=
  ∀ b, (mem2 b).map (fun n => { n with next := none }) =
       (mem b).map (fun n => { n with next := none })

/-- What a removal leaves behind: `s2` holds the queue `pre ++ post`, the two
counters are those of `s`, and the heap differs from that of `s` at most in the
`next` field of a node of `pre`. -/
def Removed (s s2 : State) (pre post : List Ptr) : Prop :=
  Queue s2 (pre ++ post) ∧ s2.req_count = s.req_count ∧ s2.req_sem = s.req_sem ∧
    SameData s.mem s2.mem ∧ ∀ b, b ∉ pre → s2.mem b = s.mem b

/-- A node with the given file size and arrival time and no successor. -/
def mk_node (file_size : Nat) (arrival : Int) : request_node :=
  { fd := 0, method := [], uri := [], version := [], filename := [], cgiargs := [],
    file_size := file_size, arrival := arrival, next := none }

/-- A state whose queue holds two nodes, at the addresses 1 and 2, with the
data of `n1` and `n2`. -/
def two_jobs (n1 n2 : request_node) : State :=
  { mem := fun a =>
      if a = 1 then some { n1 with next := some 2 }
      else if a = 2 then some { n2 with next := none }
      else none,
    req_head := some 1, req_tail := some 2, req_count := 2, req_sem := 2 }

/-- A state whose queue holds three nodes, at the addresses 1, 2 and 3. -/
def three_jobs (n1 n2 n3 : request_node) : State :=
  { mem := fun a =>
      if a = 1 then some { n1 with next := some 2 }
      else if a = 2 then some { n2 with next := some 3 }
      else if a = 3 then some { n3 with next := none }
      else none,
    req_head := some 1, req_tail := some 3, req_count := 3, req_sem := 3 }

/-- The pointer a call returned, `none` also when the call stopped on a fault. -/
def returned (r : Except Fault (Option Ptr × State)) : Option Ptr :=
  match r with
  | .ok (req, _) => req
  | .error _ => none

/-- The state at process start: no node, empty list, `sem_init(&req_sem, 0, 0)`. -/
def init : State :=
  { mem := fun _ => none, req_head := none, req_tail := none, req_count := 0, req_sem := 0 }

/-! ## The interleaved system of producers and workers -/

/-- The configuration read once at startup. -/
structure Config where
  buffer_max_size : Int
  scheduling_algo : Int

/-- The globals together with what the threads hold privately.
`held`: nodes a producer has allocated and filled (lines 308-322) and not yet
linked; `posting`: producers that left the critical section and have not yet
called `sem_post`; `woken`: workers that returned from `sem_wait` and have not
yet run their critical section; `serving`: nodes a worker got from
`pick_request` and has not yet freed. -/
structure Sys where
  st : State
  held : List Ptr
  posting : Nat
  woken : Nat
  serving : List Ptr

/-- The atomic steps of the threads. -/
inductive Event where
  | alloc (p : Ptr) (n : request_node)
  | enq (p : Ptr)
  | post
  | wait
  | deq (now : Int) (rnd : Nat) (fuel : Nat) (req : Option Ptr)
  | free (p : Ptr)

/-- The heap after `free(p)`. -/
def release (mem : Mem) (p : Ptr) : Mem :=
  fun b => if b = p then none else mem b

/-- One atomic step of one thread.
* `alloc`: a producer allocates and fills `req_new` (lines 308-322);
* `enq`: a producer passes the wait loop, which it does only when
  `req_count < buffer_max_size`, and links its node (lines 325-337);
* `post`: that producer calls `sem_post` (line 339);
* `wait`: a worker returns from `sem_wait` (line 226);
* `deq`: that worker runs `pick_request` and `req_count--` (lines 229-233);
* `free`: a worker has served its request and frees the node (lines 235-240). -/
inductive Step (cfg : Config) : Sys → Event → Sys → Prop where
  | alloc (s : Sys) (p : Ptr) (n : request_node) :
      s.st.mem p = none →
      Step cfg s (.alloc p n)
        { s with st := { s.st with mem := store_new s.st.mem p n }, held := p :: s.held }
  | enq (s : Sys) (p : Ptr) (st2 : State) :
      p ∈ s.held → s.st.req_count < cfg.buffer_max_size →
      enqueue p s.st = .ok st2 →
      Step cfg s (.enq p)
        { s with st := st2, held := s.held.erase p, posting := s.posting + 1 }
  | post (s : Sys) :
      0 < s.posting →
      Step cfg s .post { s with st := sem_post s.st, posting := s.posting - 1 }
  | wait (s : Sys) :
      0 < s.st.req_sem →
      Step cfg s .wait
        { s with st := { s.st with req_sem := s.st.req_sem - 1 }, woken := s.woken + 1 }
  | deq (s : Sys) (now : Int) (rnd fuel : Nat) (req : Option Ptr) (st2 : State) :
      0 < s.woken →
      dequeue cfg.scheduling_algo now rnd fuel s.st = .ok (req, st2) →
      Step cfg s (.deq now rnd fuel req)
        { s with st := st2, woken := s.woken - 1, serving := req.toList ++ s.serving }
  | free (s : Sys) (p : Ptr) :
      p ∈ s.serving →
      Step cfg s (.free p)
        { s with st := { s.st with mem := release s.st.mem p }, serving := s.serving.erase p }

/-- The system at process start. -/
def Sys.init : Sys :=
  { st := OSProj3.init, held := [], posting := 0, woken := 0, serving := [] }

/-- An execution: `Exec cfg s tr t` when the steps `tr` lead from `s` to `t`. -/
inductive Exec (cfg : Config) : Sys → List Event → Sys → Prop where
  | nil (s : Sys) : Exec cfg s [] s
  | snoc {s t u : Sys} {tr : List Event} {e : Event} :
      Exec cfg s tr t → Step cfg t e u → Exec cfg s (tr ++ [e]) u

/-- The states the system can be in. -/
def Reachable (cfg : Config) (s : Sys) : Prop := ∃ tr, Exec cfg Sys.init tr s

/-- The nodes linked into the queue by the steps `tr`, in that order. -/
def enqueued : List Event → List Ptr
  | [] => []
  | .enq p :: tr => p :: enqueued tr
  | _ :: tr => enqueued tr

/-- The nodes returned by `pick_request` in the steps `tr`, in that order. -/
def dequeued : List Event → List Ptr
  | [] => []
  | .deq _ _ _ (some p) :: tr => p :: dequeued tr
  | _ :: tr => dequeued tr

/-- The number of worker critical sections among the steps `tr`. -/
def deq_count : List Event → Nat
  | [] => 0
  | .deq _ _ _ _ :: tr => deq_count tr + 1
  | _ :: tr => deq_count tr

/-- A run with capacity 3: three requests are allocated, linked and posted, then
three workers wake up and dequeue in turn. -/
def abc_run : List Event :=
  [.alloc 1 (mk_node 10 0), .enq 1, .post, .alloc 2 (mk_node 20 0), .enq 2, .post,
   .alloc 3 (mk_node 30 0), .enq 3, .post,
   .wait, .deq 0 0 0 (some 1), .wait, .deq 0 0 0 (some 2), .wait, .deq 0 0 0 (some 3)]

/-- Three requests are linked, three are taken, and one more is taken from the
empty queue. -/
def abc_ops : List Op :=
  [.put 1 (mk_node 10 0), .put 2 (mk_node 20 0), .take 0 0 0, .put 3 (mk_node 30 0),
   .take 0 0 0, .take 0 0 0, .take 0 0 0]

/-- A run with capacity 1: one request is linked, a second producer has its
node ready. -/
def full_run : List Event :=
  [.alloc 1 (mk_node 10 0), .enq 1, .alloc 2 (mk_node 20 0)]

/-- A run that links one request, posts it and wakes one worker. -/
def wake_run : List Event :=
  [.alloc 1 (mk_node 10 0), .enq 1, .post, .wait]

/-- The state `wake_run` ends in: node 1 is queued, one worker is awake. -/
def wake_state : Sys :=
  { st := { mem := store_new init.mem 1 (mk_node 10 0), req_head := some 1,
            req_tail := some 1, req_count := 1, req_sem := 0 },
    held := [], posting := 0, woken := 1, serving := [] }

/-- The state `full_run` ends in: node 1 is queued and not yet posted, node 2 is
in the hands of a producer. -/
def full_state : Sys :=
  { st := { mem := store_new (store_new init.mem 1 (mk_node 10 0)) 2 (mk_node 20 0),
            req_head := some 1, req_tail := some 1, req_count := 1, req_sem := 0 },
    held := [2], posting := 1, woken := 0, serving := [] }

/-- The invariant of the interleaved system, for the queue `q` the state holds:
`req_count` is the number of linked nodes, every linked node is matched by one
unit of the semaphore, one woken worker or one producer about to post, and the
nodes held by producers, linked in the queue and held by workers are distinct
allocated nodes. -/
structure Inv (s : Sys) (q : List Ptr) : Prop where
  queue : Queue s.st q
  count : s.st.req_count = q.length
  tokens : s.st.req_sem + s.woken + s.posting = q.length
  held_nodup : s.held.Nodup
  held_fresh : ∀ p ∈ s.held, p ∉ q ∧ p ∉ s.serving ∧
    ∃ n, s.st.mem p = some n ∧ n.next = none
  serving_nodup : s.serving.Nodup
  serving_out : ∀ p ∈ s.serving, p ∉ q ∧ s.st.mem p ≠ none

/-- What a step does to the queue: `enq` appends its node, `deq` erases the one
node it returns (the head under policy 0), every other step leaves it. -/
def queue_effect (scheduling_algo : Int) : Event → List Ptr → List Ptr → Prop
  | .enq p, q, q2 => q2 = q ++ [p]
  | .deq _ _ _ req, q, q2 =>
    ∃ pre a post, req = some a ∧ q = pre ++ a :: post ∧ q2 = pre ++ post ∧
      (scheduling_algo = 0 → pre = [])
  | _, q, q2 => q2 = q

/-! ## Admission: `request_handle` -/

/-- The C `tolower` in the "C" locale. -/
def tolower (c : Char) : Char :=
  if 'A' ≤ c ∧ c ≤ 'Z' then Char.ofNat (c.toNat + 32) else c

/-- The C `strcasecmp`: zero when the strings are equal up to the case of
letters, else the difference of the first two lowered characters that differ. -/
def strcasecmp : List Char → List Char → Int
  | [], [] => 0
  | [], b :: _ => 0 - ((tolower b).toNat : Int)
  | a :: _, [] => ((tolower a).toNat : Int)
  | a :: as, b :: bs =>
    if tolower a = tolower b then strcasecmp as bs
    else ((tolower a).toNat : Int) - ((tolower b).toNat : Int)

/-- The test `strstr(hay, needle) != NULL`. -/
def strstr (hay needle : List Char) : Bool :=
  match hay with
  | [] => needle.isEmpty
  | c :: cs => needle.isPrefixOf (c :: cs) || strstr cs needle

/-- The C `request_parse_uri`: the result is `is_static`, `filename`, `cgiargs`
and `uri` as it is left behind (cut at the first `?` for dynamic content). -/
def request_parse_uri (uri : List Char) : Bool × List Char × List Char × List Char :=
  if ¬ strstr uri "cgi".toList then
    let filename := '.' :: uri
    (true, if uri.getLast? = some '/' then filename ++ "index.html".toList else filename,
      [], uri)
  else
    let uri2 := uri.takeWhile (fun c => c ≠ '?')
    let cgiargs := (uri.dropWhile (fun c => c ≠ '?')).drop 1
    (false, '.' :: uri2, cgiargs, uri2)

/-- What `request_handle` reads of a `struct stat`. -/
structure Stat where
  st_size : Nat
  is_reg : Bool
  irusr : Bool

/-- The collaborators of one call of `request_handle`: the file system as
`stat` sees it (`none` when `stat` fails), the address `malloc` returns (`none`
for `NULL`), the value of `time(NULL)`. -/
structure Env where
  stat : List Char → Option Stat
  malloc : Option Ptr
  time : Int

/-- A file system that holds the regular, readable 10-byte file `./index.html`
and nothing else; `malloc` returns the address 7. -/
def env_index : Env :=
  { stat := fun f => if f = "./index.html".toList then some ⟨10, true, true⟩ else none,
    malloc := some 7, time := 100 }

/-- How a call of `request_handle` ends.
* `error errnum cause`: `request_error` was called with this status code;
* `dropped`: `malloc` failed and the connection was closed;
* `waiting req_new`: the caller is suspended in the wait loop (line 326-327)
  with its filled node `req_new`;
* `queued req_new`: the node was linked and `sem_post` called. -/
inductive Outcome where
  | error (errnum : List Char) (cause : List Char)
  | dropped
  | waiting (req_new : Ptr)
  | queued (req_new : Ptr)
deriving DecidableEq

/-- How a call ended, `none` when it stopped on a fault. -/
def outcome (r : Except Fault (Outcome × State)) : Option Outcome :=
  match r with
  | .ok (o, _) => some o
  | .error _ => none

/-- The C function `request_handle`, from the request line on: `method`, `uri`
and `version` are the three tokens `sscanf` splits the request line into. The
result is how the call ends and the state of the globals then. Reading and
discarding the header lines does not touch the globals and is left out. -/
def request_handle (buffer_max_size : Int) (env : Env) (fd : Int)
    (method uri version : List Char) (s : State) : Except Fault (Outcome × State) :=
  if strcasecmp method "GET".toList ≠ 0 then
    .ok (.error "501".toList method, s)
  else
    let (is_static, filename, cgiargs, uri2) := request_parse_uri uri
    match env.stat filename with
    | none => .ok (.error "404".toList filename, s)
    | some sbuf =>
      if is_static then
        if ¬ sbuf.is_reg ∨ ¬ sbuf.irusr then .ok (.error "403".toList filename, s)
        else if strstr uri2 "..".toList then .ok (.error "403".toList uri2, s)
        else
          match env.malloc with
          | none => .ok (.dropped, s)
          | some req_new =>
            let node : request_node :=
              { fd := fd, method := method, uri := uri2, version := version,
                filename := filename, cgiargs := cgiargs, file_size := sbuf.st_size,
                arrival := env.time, next := none }
            let s1 := { s with mem := store_new s.mem req_new node }
            if s1.req_count ≥ buffer_max_size then .ok (.waiting req_new, s1)
            else
              match enqueue req_new s1 with
              | .error e => .error e
              | .ok s2 => .ok (.queued req_new, sem_post s2)
      else .ok (.error "501".toList filename, s)

/-! ## Chains in the heap -/

theorem seg_cons_iff (mem : Mem) (p : Option Ptr) (a : Ptr) (as : List Ptr)
    (q : Option Ptr) :
    Seg mem p (a :: as) q ↔ p = some a ∧ ∃ n, mem a = some n ∧ Seg mem n.next as q := by
  have h : Seg mem p (a :: as) q =
      (p = some a ∧ match mem a with
        | none => False
        | some n => Seg mem n.next as q) := rfl
  rw [h]
  cases hm : mem a <;> simp

theorem seg_nil_iff (mem : Mem) (p q : Option Ptr) : Seg mem p [] q ↔ p = q := by
  unfold Seg; rfl

theorem seg_append (mem : Mem) (xs ys : List Ptr) (p q : Option Ptr) :
    Seg mem p (xs ++ ys) q ↔ ∃ m, Seg mem p xs m ∧ Seg mem m ys q := by
  induction xs generalizing p with
  | nil => simp [seg_nil_iff]
  | cons a as ih =>
    simp only [List.cons_append, seg_cons_iff, ih]
    constructor
    · rintro ⟨hp, n, hn, m, h1, h2⟩
      exact ⟨m, ⟨hp, n, hn, h1⟩, h2⟩
    · rintro ⟨m, ⟨hp, n, hn, h1⟩, h2⟩
      exact ⟨hp, n, hn, m, h1, h2⟩

theorem seg_det (mem : Mem) (xs ys : List Ptr) (p : Option Ptr)
    (hx : Chain mem p xs) (hy : Chain mem p ys) : xs = ys := by
  unfold Chain at hx hy
  induction xs generalizing p ys with
  | nil =>
    cases ys with
    | nil => rfl
    | cons b bs =>
      rw [seg_nil_iff] at hx
      rw [seg_cons_iff] at hy
      rw [hx] at hy
      exact absurd hy.1 (by simp)
  | cons a as ih =>
    rw [seg_cons_iff] at hx
    obtain ⟨hp, n, hn, hx⟩ := hx
    cases ys with
    | nil =>
      rw [seg_nil_iff] at hy
      rw [hy] at hp
      exact absurd hp (by simp)
    | cons b bs =>
      rw [seg_cons_iff] at hy
      obtain ⟨hp2, n2, hn2, hy⟩ := hy
      rw [hp] at hp2
      cases hp2
      rw [hn] at hn2
      cases hn2
      rw [ih bs n.next hx hy]

theorem seg_alloc (mem : Mem) (xs : List Ptr) (p q : Option Ptr)
    (h : Seg mem p xs q) (a : Ptr) (ha : a ∈ xs) : ∃ n, mem a = some n := by
  induction xs generalizing p with
  | nil => simp at ha
  | cons b bs ih =>
    rw [seg_cons_iff] at h
    obtain ⟨_, n, hn, h⟩ := h
    rcases List.mem_cons.1 ha with rfl | hb
    · exact ⟨n, hn⟩
    · exact ih n.next h hb

theorem chain_nodup (mem : Mem) (xs : List Ptr) (p : Option Ptr)
    (h : Chain mem p xs) : xs.Nodup := by
  unfold Chain at h
  induction xs generalizing p with
  | nil => exact List.nodup_nil
  | cons a as ih =>
    have h0 := h
    rw [seg_cons_iff] at h
    obtain ⟨_, n, hn, h⟩ := h
    refine List.nodup_cons.2 ⟨?_, ih n.next h⟩
    intro ha
    obtain ⟨l1, l2, rfl⟩ := List.append_of_mem ha
    have h2 := h
    rw [seg_append] at h2
    obtain ⟨m, _, h3⟩ := h2
    rw [seg_cons_iff] at h3
    obtain ⟨_, n2, hn2, h3⟩ := h3
    rw [hn] at hn2
    cases hn2
    have := seg_det mem _ _ _ h3 h
    have hl := congrArg List.length this
    simp at hl
    omega

theorem seg_frame (mem mem2 : Mem) (xs : List Ptr) (p q : Option Ptr)
    (hsame : ∀ b ∈ xs, mem2 b = mem b) (h : Seg mem p xs q) : Seg mem2 p xs q := by
  induction xs generalizing p with
  | nil => exact h
  | cons a as ih =>
    rw [seg_cons_iff] at h ⊢
    obtain ⟨hp, n, hn, h⟩ := h
    refine ⟨hp, n, ?_, ih n.next (fun b hb => hsame b (List.mem_cons_of_mem _ hb)) h⟩
    rw [hsame a (List.mem_cons_self _ _)]
    exact hn

theorem set_next_other (mem : Mem) (a b : Ptr) (v : Option Ptr) (h : b ≠ a) :
    set_next mem a v b = mem b := by
  simp [set_next, h]

theorem set_next_self (mem : Mem) (a : Ptr) (v : Option Ptr) (n : request_node)
    (h : mem a = some n) : set_next mem a v a = some { n with next := v } := by
  simp [set_next, h]

theorem sameData_refl (mem : Mem) : SameData mem mem := fun _ => rfl

theorem sameData_set_next (mem : Mem) (a : Ptr) (v : Option Ptr) :
    SameData mem (set_next mem a v) := by
  intro b
  by_cases h : b = a
  · subst h
    cases hm : mem b with
    | none => simp [set_next, hm]
    | some n => simp [set_next, hm]
  · rw [set_next_other mem a b v h]

theorem sameData_trans (m1 m2 m3 : Mem) (h1 : SameData m1 m2) (h2 : SameData m2 m3) :
    SameData m1 m3 := fun b => (h2 b).trans (h1 b)

theorem sameData_file_size (mem mem2 : Mem) (h : SameData mem mem2) (a : Ptr) :
    file_size_of mem2 a = file_size_of mem a := by
  have := h a
  unfold file_size_of
  cases h1 : mem a <;> cases h2 : mem2 a <;> simp [h1, h2] at this ⊢
  exact this.2.2.2.2.2.2.1

theorem sameData_age (mem mem2 : Mem) (h : SameData mem mem2) (now : Int) (a : Ptr) :
    age_of mem2 now a = age_of mem now a := by
  have := h a
  unfold age_of
  cases h1 : mem a <;> cases h2 : mem2 a <;> simp [h1, h2] at this ⊢
  rw [this.2.2.2.2.2.2.2]

theorem sameData_none (mem mem2 : Mem) (h : SameData mem mem2) (a : Ptr) :
    mem2 a = none ↔ mem a = none := by
  have := h a
  cases h1 : mem a <;> cases h2 : mem2 a <;> simp [h1, h2] at this ⊢

/-! ## The operations on a well-formed queue -/

theorem deref_some (mem : Mem) (a : Ptr) (n : request_node) (h : mem a = some n) :
    deref mem (some a) = .ok n := by
  simp [deref, h]

theorem unlink_spec (s : State) (pre post : List Ptr) (a : Ptr)
    (hq : Queue s (pre ++ a :: post)) :
    ∃ s2, unlink s (some a) pre.getLast? = .ok s2 ∧ Removed s s2 pre post := by
  obtain ⟨hc, ht⟩ := hq
  have hnd := chain_nodup _ _ _ hc
  unfold Chain at hc
  rw [seg_append] at hc
  obtain ⟨m, hpre, hrest⟩ := hc
  rw [seg_cons_iff] at hrest
  obtain ⟨hm, n, hn, hpost⟩ := hrest
  subst hm
  rw [List.getLast?_append_cons] at ht
  have htail : (some a = s.req_tail) ↔ post = [] := by
    rw [ht]
    cases post with
    | nil => simp
    | cons c cs =>
      simp only [List.getLast?_cons_cons, reduceCtorEq, iff_false]
      intro h
      have hmem := List.mem_of_getLast?_eq_some h.symm
      have := (List.nodup_cons.1 (List.nodup_append.1 hnd).2.1).1
      exact this hmem
  rcases List.eq_nil_or_concat pre with rfl | ⟨pre2, b, rfl⟩
  · rw [seg_nil_iff] at hpre
    by_cases hp : post = []
    · subst hp
      rw [seg_nil_iff] at hpost
      refine ⟨{ s with req_head := n.next, req_tail := none }, ?_, ?_⟩
      · simp [unlink, deref, hn, bind, Except.bind, pure, Except.pure, htail]
      · refine ⟨⟨?_, ?_⟩, rfl, rfl, sameData_refl _, fun _ _ => rfl⟩
        · simp [Chain, seg_nil_iff, hpost]
        · simp
    · refine ⟨{ s with req_head := n.next }, ?_, ?_⟩
      · simp [unlink, deref, hn, bind, Except.bind, pure, Except.pure, htail, hp]
      · refine ⟨⟨?_, ?_⟩, rfl, rfl, sameData_refl _, fun _ _ => rfl⟩
        · simpa [Chain] using hpost
        · simp only [List.nil_append]
          rw [ht]
          obtain ⟨c, cs, rfl⟩ := List.exists_cons_of_ne_nil hp
          simp
  · rw [List.concat_eq_append] at hpre hnd ⊢
    rw [seg_append] at hpre
    obtain ⟨m2, hpre2, hb⟩ := hpre
    rw [seg_cons_iff] at hb
    obtain ⟨hm2, nb, hnb, hb⟩ := hb
    subst hm2
    rw [seg_nil_iff] at hb
    have hnd2 : b ∉ pre2 ∧ b ≠ a ∧ b ∉ post := by
      rw [List.append_assoc, List.nodup_append] at hnd
      obtain ⟨_, h2, h3⟩ := hnd
      refine ⟨fun h => h3 h (by simp), ?_, ?_⟩
      · rintro rfl
        simp at h2
      · intro h
        simp [h] at h2
    have hmem : ∀ c, c ≠ b → set_next s.mem b n.next c = s.mem c :=
      fun c hc => set_next_other _ _ _ _ hc
    have hch : Chain (set_next s.mem b n.next) s.req_head ((pre2 ++ [b]) ++ post) := by
      unfold Chain
      rw [seg_append]
      refine ⟨n.next, ?_, ?_⟩
      · rw [seg_append]
        refine ⟨some b, ?_, ?_⟩
        · exact seg_frame _ _ _ _ _ (fun c hc => hmem c (fun h => hnd2.1 (h ▸ hc))) hpre2
        · rw [seg_cons_iff]
          exact ⟨rfl, _, set_next_self _ _ _ _ hnb, by rw [seg_nil_iff]⟩
      · exact seg_frame _ _ _ _ _ (fun c hc => hmem c (fun h => hnd2.2.2 (h ▸ hc))) hpost
    have hrest : SameData s.mem (set_next s.mem b n.next) ∧
        ∀ c, c ∉ pre2 ++ [b] → set_next s.mem b n.next c = s.mem c :=
      ⟨sameData_set_next _ _ _, fun c hc => hmem c (fun h => hc (by simp [h]))⟩
    by_cases hp : post = []
    · subst hp
      refine ⟨{ s with mem := set_next s.mem b n.next, req_tail := some b }, ?_, ?_⟩
      · simp [unlink, deref, hn, hnb, bind, Except.bind, pure, Except.pure, htail]
      · exact ⟨⟨hch, by simp⟩, rfl, rfl, hrest.1, hrest.2⟩
    · refine ⟨{ s with mem := set_next s.mem b n.next }, ?_, ?_⟩
      · simp [unlink, deref, hn, hnb, bind, Except.bind, pure, Except.pure, htail, hp]
      · refine ⟨⟨hch, ?_⟩, rfl, rfl, hrest.1, hrest.2⟩
        show s.req_tail = _
        rw [ht, List.getLast?_append_of_ne_nil _ hp]
        obtain ⟨c, cs, rfl⟩ := List.exists_cons_of_ne_nil hp
        simp

theorem removed_mem_eq (s s2 : State) (post : List Ptr) (h : Removed s s2 [] post) :
    s2.mem = s.mem :=
  funext fun b => h.2.2.2.2 b (by simp)

theorem pick_fifo_cons (s : State) (a : Ptr) (post : List Ptr) (hq : Queue s (a :: post)) :
    ∃ s2, pick_fifo s = .ok (some a, s2) ∧ Removed s s2 [] post := by
  obtain ⟨hc, ht⟩ := hq
  unfold Chain at hc
  rw [seg_cons_iff] at hc
  obtain ⟨hh, n, hn, hpost⟩ := hc
  cases post with
  | nil =>
    rw [seg_nil_iff] at hpost
    refine ⟨{ s with req_head := none, req_tail := none }, ?_, ?_⟩
    · simp [pick_fifo, hh, deref, hn, hpost, bind, Except.bind, pure, Except.pure]
    · exact ⟨⟨by simp [Chain, seg_nil_iff], by simp⟩, rfl, rfl, sameData_refl _, fun _ _ => rfl⟩
  | cons c cs =>
    have hne : n.next = some c := ((seg_cons_iff _ _ _ _ _).1 hpost).1
    refine ⟨{ s with req_head := n.next }, ?_, ?_⟩
    · simp [pick_fifo, hh, deref, hn, hne, bind, Except.bind, pure, Except.pure]
    · refine ⟨⟨by simpa [Chain] using hpost, ?_⟩, rfl, rfl, sameData_refl _, fun _ _ => rfl⟩
      show s.req_tail = _
      rw [ht]
      simp

theorem pick_fifo_nil (s : State) (hq : Queue s []) :
    pick_fifo s = .ok (none, { s with req_head := none, req_tail := none }) := by
  obtain ⟨hc, _⟩ := hq
  unfold Chain at hc
  rw [seg_nil_iff] at hc
  simp [pick_fifo, hc, bind, Except.bind, pure, Except.pure]

theorem sff_scan_spec (mem : Mem) (now : Int) (q : List Ptr) (head : Option Ptr)
    (hchain : Chain mem head q) (rest : List Ptr) :
    ∀ (done : List Ptr) (cur : Option Ptr) (fuel : Nat) (sel : Ptr) (pre post : List Ptr),
      q = done ++ rest → Chain mem cur rest → rest.length ≤ fuel →
      q = pre ++ sel :: post →
      ∃ pre2 post2, q = pre2 ++ sff_choice mem now sel rest :: post2 ∧
        sff_scan mem now fuel cur done.getLast? (some sel) pre.getLast? =
          .ok (some (sff_choice mem now sel rest), pre2.getLast?) := by
  induction rest with
  | nil =>
    intro done cur fuel sel pre post _ hcur _ hsel
    unfold Chain at hcur
    rw [seg_nil_iff] at hcur
    subst hcur
    refine ⟨pre, post, hsel, ?_⟩
    cases fuel <;> simp [sff_scan, sff_choice]
  | cons c cs ih =>
    intro done cur fuel sel pre post hq hcur hf hsel
    unfold Chain at hcur
    rw [seg_cons_iff] at hcur
    obtain ⟨hc, cn, hcn, hcs⟩ := hcur
    subst hc
    obtain ⟨sn, hsn⟩ := seg_alloc mem q head none hchain sel (by rw [hsel]; simp)
    obtain ⟨f, rfl⟩ : ∃ f, fuel = f + 1 := ⟨fuel - 1, by simp at hf; omega⟩
    have hq2 : q = (done ++ [c]) ++ cs := by rw [hq]; simp
    have hlen : cs.length ≤ f := by simp at hf; omega
    have hage : age_of mem now c = now - cn.arrival := by simp [age_of, hcn]
    have hsz : file_size_of mem c = cn.file_size := by simp [file_size_of, hcn]
    have hsz2 : file_size_of mem sel = sn.file_size := by simp [file_size_of, hsn]
    by_cases hA : now - cn.arrival ≥ AGING_THRESHOLD
    · obtain ⟨pre2, post2, h1, h2⟩ := ih (done ++ [c]) cn.next f c done cs hq2 hcs hlen hq
      refine ⟨pre2, post2, ?_, ?_⟩
      · simpa [sff_choice, hage, hA] using h1
      · rw [List.getLast?_concat] at h2
        simp [sff_scan, deref, hcn, hA, bind, Except.bind, pure, Except.pure, sff_choice,
          hage, h2]
    · by_cases hS : cn.file_size < sn.file_size
      · obtain ⟨pre2, post2, h1, h2⟩ := ih (done ++ [c]) cn.next f c done cs hq2 hcs hlen hq
        refine ⟨pre2, post2, ?_, ?_⟩
        · simpa [sff_choice, hage, hA, hsz, hsz2, hS] using h1
        · rw [List.getLast?_concat] at h2
          simp [sff_scan, deref, hcn, hsn, hA, hS, bind, Except.bind, pure, Except.pure,
            sff_choice, hage, hsz, hsz2, h2]
      · obtain ⟨pre2, post2, h1, h2⟩ :=
          ih (done ++ [c]) cn.next f sel pre post hq2 hcs hlen hsel
        refine ⟨pre2, post2, ?_, ?_⟩
        · simpa [sff_choice, hage, hA, hsz, hsz2, hS] using h1
        · rw [List.getLast?_concat] at h2
          simp [sff_scan, deref, hcn, hsn, hA, hS, bind, Except.bind, pure, Except.pure,
            sff_choice, hage, hsz, hsz2, h2]

theorem count_loop_spec (mem : Mem) (q : List Ptr) :
    ∀ (p : Option Ptr) (fuel k : Nat), Chain mem p q → q.length ≤ fuel →
      count_loop mem fuel p k = .ok (k + q.length) := by
  induction q with
  | nil =>
    intro p fuel k hc _
    unfold Chain at hc
    rw [seg_nil_iff] at hc
    subst hc
    cases fuel <;> simp [count_loop]
  | cons a as ih =>
    intro p fuel k hc hf
    unfold Chain at hc
    rw [seg_cons_iff] at hc
    obtain ⟨hp, n, hn, hc⟩ := hc
    subst hp
    obtain ⟨f, rfl⟩ : ∃ f, fuel = f + 1 := ⟨fuel - 1, by simp at hf; omega⟩
    have := ih n.next f (k + 1) hc (by simp at hf; omega)
    simp [count_loop, deref, hn, bind, Except.bind, this]
    omega

theorem walk_spec (mem : Mem) (pre : List Ptr) :
    ∀ (p m prev0 : Option Ptr), Seg mem p pre m →
      walk mem pre.length p prev0 = .ok (m, pre.getLast?.or prev0) := by
  induction pre with
  | nil =>
    intro p m prev0 h
    rw [seg_nil_iff] at h
    subst h
    simp [walk]
  | cons a as ih =>
    intro p m prev0 h
    rw [seg_cons_iff] at h
    obtain ⟨hp, n, hn, h⟩ := h
    subst hp
    have := ih n.next m (some a) h
    simp only [List.length_cons, walk, deref, hn, bind, Except.bind, this]
    have h2 : (a :: as).getLast? = as.getLast?.or (some a) := by
      have := @List.getLast?_append _ [a] as
      simpa using this
    rw [h2]
    cases as.getLast? <;> simp

theorem pick_sff_spec (s : State) (now : Int) (fuel : Nat) (a : Ptr) (t : List Ptr)
    (hq : Queue s (a :: t)) (hf : (a :: t).length ≤ fuel) :
    ∃ pre post s2, a :: t = pre ++ sff_choice s.mem now a (a :: t) :: post ∧
      pick_sff now fuel s = .ok (some (sff_choice s.mem now a (a :: t)), s2) ∧
      Removed s s2 pre post := by
  have hh : s.req_head = some a := ((seg_cons_iff _ _ _ _ _).1 hq.1).1
  obtain ⟨pre, post, h1, h2⟩ :=
    sff_scan_spec s.mem now (a :: t) s.req_head hq.1 (a :: t) [] s.req_head fuel a [] t
      rfl hq.1 hf rfl
  have hq2 : Queue s (pre ++ sff_choice s.mem now a (a :: t) :: post) := h1 ▸ hq
  obtain ⟨s2, h3, h4⟩ := unlink_spec s pre post _ hq2
  refine ⟨pre, post, s2, h1, ?_, h4⟩
  simp only [List.getLast?_nil] at h2
  rw [hh] at h2
  simp [pick_sff, hh, h2, h3, bind, Except.bind, pure, Except.pure]

theorem pick_random_spec (s : State) (rnd fuel : Nat) (q : List Ptr)
    (hq : Queue s q) (hne : q ≠ []) (hf : q.length ≤ fuel) :
    ∃ pre a post s2, q = pre ++ a :: post ∧ pre.length = rnd % q.length ∧
      pick_random rnd fuel s = .ok (some a, s2) ∧ Removed s s2 pre post := by
  have hpos : 0 < q.length := List.length_pos.2 hne
  have hr : rnd % q.length < q.length := Nat.mod_lt _ hpos
  have hsplit : q = q.take (rnd % q.length) ++ q[rnd % q.length] :: q.drop (rnd % q.length + 1) := by
    conv_lhs => rw [← List.take_append_drop (rnd % q.length) q]
    rw [List.drop_eq_getElem_cons hr]
  have hlen : (q.take (rnd % q.length)).length = rnd % q.length := by
    rw [List.length_take]; omega
  generalize q.take (rnd % q.length) = pre at hsplit hlen
  generalize q[rnd % q.length] = a at hsplit
  generalize q.drop (rnd % q.length + 1) = post at hsplit
  have hq2 : Queue s (pre ++ a :: post) := hsplit ▸ hq
  obtain ⟨s2, h3, h4⟩ := unlink_spec s pre post a hq2
  refine ⟨pre, a, post, s2, hsplit, hlen, ?_, h4⟩
  have hcount := count_loop_spec s.mem q s.req_head fuel 0 hq.1 hf
  have hseg := hq2.1
  unfold Chain at hseg
  rw [seg_append] at hseg
  obtain ⟨m, hseg, hm⟩ := hseg
  have hm2 : m = some a := ((seg_cons_iff _ _ _ _ _).1 hm).1
  subst hm2
  have hwalk := walk_spec s.mem pre s.req_head (some a) none hseg
  rw [hlen] at hwalk
  have hz : q.length ≠ 0 := by omega
  simp [pick_random, hcount, hz, hwalk, h3, bind, Except.bind, pure, Except.pure, throw,
    throwThe, MonadExceptOf.throw]

theorem enqueue_spec (s : State) (q : List Ptr) (p : Ptr) (n : request_node)
    (hq : Queue s q) (hp : s.mem p = some n) (hnext : n.next = none) (hfresh : p ∉ q) :
    ∃ s2, enqueue p s = .ok s2 ∧ Queue s2 (q ++ [p]) ∧
      s2.req_count = s.req_count + 1 ∧ s2.req_sem = s.req_sem ∧
      SameData s.mem s2.mem ∧ ∀ b, b ∉ q → s2.mem b = s.mem b := by
  obtain ⟨hc, ht⟩ := hq
  rcases List.eq_nil_or_concat q with rfl | ⟨q2, t, rfl⟩
  · unfold Chain at hc
    rw [seg_nil_iff] at hc
    refine ⟨{ s with req_head := some p, req_tail := some p, req_count := s.req_count + 1 },
      ?_, ⟨?_, ?_⟩, rfl, rfl, sameData_refl _, fun _ _ => rfl⟩
    · simp [enqueue, hc]
    · unfold Chain
      simp only [List.nil_append]
      rw [seg_cons_iff]
      exact ⟨rfl, n, hp, by rw [seg_nil_iff]; exact hnext⟩
    · simp
  · rw [List.concat_eq_append] at hc ht hfresh ⊢
    have hnd := chain_nodup _ _ _ hc
    unfold Chain at hc
    rw [seg_append] at hc
    obtain ⟨m, hpre, hlast⟩ := hc
    rw [seg_cons_iff] at hlast
    obtain ⟨hm, nt, hnt, hend⟩ := hlast
    subst hm
    rw [seg_nil_iff] at hend
    rw [List.getLast?_concat] at ht
    have hhead : ∃ h, s.req_head = some h := by
      cases q2 with
      | nil => exact ⟨t, by rw [seg_nil_iff] at hpre; exact hpre⟩
      | cons c cs => exact ⟨c, ((seg_cons_iff _ _ _ _ _).1 hpre).1⟩
    obtain ⟨h, hh⟩ := hhead
    have htq : t ∉ q2 := by
      rw [List.nodup_append] at hnd
      exact fun hmem => hnd.2.2 hmem (by simp)
    have hpt : p ≠ t := fun heq => hfresh (by simp [heq])
    have hpq : p ∉ q2 := fun hmem => hfresh (by simp [hmem])
    refine ⟨{ s with mem := set_next s.mem t (some p), req_tail := some p,
                     req_count := s.req_count + 1 }, ?_, ⟨?_, ?_⟩, rfl, rfl,
      sameData_set_next _ _ _, ?_⟩
    · simp [enqueue, hh, ht, hnt]
    · unfold Chain
      rw [seg_append]
      refine ⟨some p, ?_, ?_⟩
      · rw [seg_append]
        refine ⟨some t, ?_, ?_⟩
        · exact seg_frame _ _ _ _ _
            (fun c hc => set_next_other _ _ _ _ (fun heq => htq (heq ▸ hc))) hpre
        · rw [seg_cons_iff]
          exact ⟨rfl, _, set_next_self _ _ _ _ hnt, by rw [seg_nil_iff]⟩
      · rw [seg_cons_iff]
        refine ⟨rfl, n, ?_, by rw [seg_nil_iff]; exact hnext⟩
        show set_next s.mem t (some p) p = some n
        rw [set_next_other _ _ _ _ hpt, hp]
    · show some p = _
      simp
    · intro b hb
      exact set_next_other _ _ _ _ (fun heq => hb (by simp [heq]))

/-! ## What the SFF scan selects -/

theorem split_unique (l1 l2 r1 r2 : List Ptr) (a : Ptr)
    (hnd : (l1 ++ a :: r1).Nodup) (h : l1 ++ a :: r1 = l2 ++ a :: r2) :
    l1 = l2 ∧ r1 = r2 := by
  induction l1 generalizing l2 with
  | nil =>
    cases l2 with
    | nil => simpa using h
    | cons b l2 =>
      simp only [List.nil_append, List.cons_append, List.cons.injEq] at h
      obtain ⟨rfl, h⟩ := h
      simp [h] at hnd
  | cons c l1 ih =>
    cases l2 with
    | nil =>
      simp only [List.nil_append, List.cons_append, List.cons.injEq] at h
      obtain ⟨rfl, _⟩ := h
      simp at hnd
    | cons b l2 =>
      simp only [List.cons_append, List.cons.injEq] at h
      obtain ⟨rfl, h⟩ := h
      have := ih l2 (List.nodup_cons.1 hnd).2 h
      exact ⟨by rw [this.1], this.2⟩

theorem sff_choice_min (mem : Mem) (now : Int) (rest : List Ptr) :
    ∀ sel, (∀ x ∈ rest, age_of mem now x < AGING_THRESHOLD) →
      ∃ pre post, sel :: rest = pre ++ sff_choice mem now sel rest :: post ∧
        (∀ x ∈ pre, file_size_of mem (sff_choice mem now sel rest) < file_size_of mem x) ∧
        (∀ x ∈ post, file_size_of mem (sff_choice mem now sel rest) ≤ file_size_of mem x) := by
  induction rest with
  | nil =>
    intro sel _
    exact ⟨[], [], by simp [sff_choice], by simp, by simp⟩
  | cons c cs ih =>
    intro sel hyoung
    have hc : ¬ age_of mem now c ≥ AGING_THRESHOLD := by
      have := hyoung c (by simp)
      omega
    have hcs : ∀ x ∈ cs, age_of mem now x < AGING_THRESHOLD :=
      fun x hx => hyoung x (by simp [hx])
    by_cases hS : file_size_of mem c < file_size_of mem sel
    · have hch : sff_choice mem now sel (c :: cs) = sff_choice mem now c cs := by
        simp [sff_choice, hc, hS]
      rw [hch]
      obtain ⟨pre, post, h1, h2, h3⟩ := ih c hcs
      refine ⟨sel :: pre, post, by rw [h1]; simp, ?_, h3⟩
      intro x hx
      have hle : file_size_of mem (sff_choice mem now c cs) ≤ file_size_of mem c := by
        cases pre with
        | nil =>
          simp only [List.nil_append, List.cons.injEq] at h1
          rw [← h1.1]
        | cons d ds =>
          simp only [List.cons_append, List.cons.injEq] at h1
          exact Nat.le_of_lt (h2 c (by rw [h1.1]; simp))
      rcases List.mem_cons.1 hx with rfl | hx
      · omega
      · exact h2 x hx
    · have hch : sff_choice mem now sel (c :: cs) = sff_choice mem now sel cs := by
        simp [sff_choice, hc, hS]
      rw [hch]
      obtain ⟨pre, post, h1, h2, h3⟩ := ih sel hcs
      cases pre with
      | nil =>
        simp only [List.nil_append, List.cons.injEq] at h1
        refine ⟨[], c :: post, ?_, by simp, ?_⟩
        · simp only [List.nil_append, List.cons.injEq]
          exact ⟨h1.1, trivial, h1.2⟩
        · intro x hx
          rcases List.mem_cons.1 hx with rfl | hx
          · rw [← h1.1]; omega
          · exact h3 x hx
      | cons d ds =>
        simp only [List.cons_append, List.cons.injEq] at h1
        refine ⟨d :: c :: ds, post, ?_, ?_, h3⟩
        · simp only [List.cons_append, List.cons.injEq]
          exact ⟨h1.1, trivial, h1.2⟩
        · intro x hx
          have hd := h2 d (by simp)
          rw [← h1.1] at hd
          rcases List.mem_cons.1 hx with rfl | hx
          · exact h2 x (by simp)
          · rcases List.mem_cons.1 hx with rfl | hx
            · omega
            · exact h2 x (by simp [hx])

theorem sff_choice_aged (mem : Mem) (now : Int) (before after : List Ptr) (l : Ptr)
    (hl : age_of mem now l ≥ AGING_THRESHOLD) :
    ∀ sel, sff_choice mem now sel (before ++ l :: after) = sff_choice mem now l after := by
  induction before with
  | nil => intro sel; simp [sff_choice, hl]
  | cons b bs ih =>
    intro sel
    simp only [List.cons_append, sff_choice]
    split <;> exact ih _

/-! ## Running out of fuel, and what a returned result must be -/

theorem sff_scan_short (mem : Mem) (now : Int) (rest : List Ptr) :
    ∀ (cur prev sp : Option Ptr) (fuel : Nat) (sel : Ptr) (sn : request_node),
      Chain mem cur rest → mem sel = some sn → fuel < rest.length →
      sff_scan mem now fuel cur prev (some sel) sp = .error .fuel := by
  induction rest with
  | nil => intro _ _ _ _ _ _ _ _ hf; simp at hf
  | cons c cs ih =>
    intro cur prev sp fuel sel sn hcur hsn hf
    unfold Chain at hcur
    rw [seg_cons_iff] at hcur
    obtain ⟨hc, cn, hcn, hcs⟩ := hcur
    subst hc
    cases fuel with
    | zero => simp [sff_scan]
    | succ f =>
      have hlen : f < cs.length := by simp at hf; omega
      have h1 := ih cn.next (some c) prev f c cn hcs hcn hlen
      have h2 := ih cn.next (some c) sp f sel sn hcs hsn hlen
      by_cases hA : now - cn.arrival ≥ AGING_THRESHOLD
      · simp [sff_scan, deref, hcn, hA, bind, Except.bind, pure, Except.pure, h1]
      · by_cases hS : cn.file_size < sn.file_size
        · simp [sff_scan, deref, hcn, hsn, hA, hS, bind, Except.bind, pure, Except.pure, h1]
        · simp [sff_scan, deref, hcn, hsn, hA, hS, bind, Except.bind, pure, Except.pure, h2]

theorem count_loop_short (mem : Mem) (q : List Ptr) :
    ∀ (p : Option Ptr) (fuel k : Nat), Chain mem p q → fuel < q.length →
      count_loop mem fuel p k = .error .fuel := by
  induction q with
  | nil => intro _ _ _ _ hf; simp at hf
  | cons a as ih =>
    intro p fuel k hc hf
    unfold Chain at hc
    rw [seg_cons_iff] at hc
    obtain ⟨hp, n, hn, hc⟩ := hc
    subst hp
    cases fuel with
    | zero => simp [count_loop]
    | succ f =>
      have := ih n.next f (k + 1) hc (by simp at hf; omega)
      simp [count_loop, deref, hn, bind, Except.bind, this]

/-- On a non-empty queue each of the three policies, given fuel for one pass
over the queue, returns one node of the queue and unlinks it. -/
theorem pick_request_spec (scheduling_algo : Int) (now : Int) (rnd fuel : Nat)
    (s : State) (q : List Ptr)
    (hpol : scheduling_algo = 0 ∨ scheduling_algo = 1 ∨ scheduling_algo = 2)
    (hq : Queue s q) (hne : q ≠ []) (hfuel : q.length ≤ fuel) :
    ∃ pre a post s2, q = pre ++ a :: post ∧
      pick_request scheduling_algo now rnd fuel s = .ok (some a, s2) ∧
      Removed s s2 pre post ∧ (scheduling_algo = 0 → pre = []) := by
  obtain ⟨h, t, rfl⟩ := List.exists_cons_of_ne_nil hne
  rcases hpol with rfl | rfl | rfl
  · obtain ⟨s2, h1, h2⟩ := pick_fifo_cons s h t hq
    exact ⟨[], h, t, s2, rfl, by simp [pick_request, h1], h2, fun _ => rfl⟩
  · obtain ⟨pre, post, s2, h1, h2, h3⟩ := pick_sff_spec s now fuel h t hq hfuel
    exact ⟨pre, _, post, s2, h1, by simp [pick_request, h2], h3, by simp⟩
  · obtain ⟨pre, a, post, s2, h1, _, h2, h3⟩ := pick_random_spec s rnd fuel (h :: t) hq hne hfuel
    exact ⟨pre, a, post, s2, h1, by simp [pick_request, h2], h3, by simp⟩

/-- With less fuel than one pass over the queue needs, the scanning policies
stop on the fuel bound; they return no result. -/
theorem pick_request_short (scheduling_algo : Int) (now : Int) (rnd fuel : Nat)
    (s : State) (q : List Ptr)
    (hpol : scheduling_algo = 1 ∨ scheduling_algo = 2)
    (hq : Queue s q) (hfuel : fuel < q.length) :
    pick_request scheduling_algo now rnd fuel s = .error .fuel := by
  have hne : q ≠ [] := by rintro rfl; simp at hfuel
  obtain ⟨h, t, rfl⟩ := List.exists_cons_of_ne_nil hne
  have hh : s.req_head = some h := ((seg_cons_iff _ _ _ _ _).1 hq.1).1
  obtain ⟨n, hn⟩ := seg_alloc _ _ _ _ hq.1 h (by simp)
  rcases hpol with rfl | rfl
  · have := sff_scan_short s.mem now (h :: t) s.req_head none none fuel h n hq.1 hn hfuel
    rw [hh] at this
    simp [pick_request, pick_sff, hh, this, bind, Except.bind]
  · have := count_loop_short s.mem (h :: t) s.req_head fuel 0 hq.1 hfuel
    simp [pick_request, pick_random, this, bind, Except.bind]

/-- Whatever the fuel: a result of `pick_request` on a non-empty queue is one
node of the queue, unlinked. -/
theorem pick_request_inv (scheduling_algo : Int) (now : Int) (rnd fuel : Nat)
    (s : State) (q : List Ptr) (req : Option Ptr) (s2 : State)
    (hpol : scheduling_algo = 0 ∨ scheduling_algo = 1 ∨ scheduling_algo = 2)
    (hq : Queue s q) (hne : q ≠ [])
    (hres : pick_request scheduling_algo now rnd fuel s = .ok (req, s2)) :
    ∃ pre a post, req = some a ∧ q = pre ++ a :: post ∧ Removed s s2 pre post ∧
      (scheduling_algo = 0 → pre = []) := by
  by_cases hf : q.length ≤ fuel
  · obtain ⟨pre, a, post, s3, h1, h2, h3, h4⟩ :=
      pick_request_spec scheduling_algo now rnd fuel s q hpol hq hne hf
    rw [h2] at hres
    simp only [Except.ok.injEq, Prod.mk.injEq] at hres
    obtain ⟨rfl, rfl⟩ := hres
    exact ⟨pre, a, post, rfl, h1, h3, h4⟩
  · rcases hpol with rfl | hpol
    · obtain ⟨h, t, rfl⟩ := List.exists_cons_of_ne_nil hne
      obtain ⟨s3, h1, h2⟩ := pick_fifo_cons s h t hq
      simp only [pick_request, if_true, h1, Except.ok.injEq, Prod.mk.injEq] at hres
      obtain ⟨rfl, rfl⟩ := hres
      exact ⟨[], h, t, rfl, rfl, h2, fun _ => rfl⟩
    · rw [pick_request_short scheduling_algo now rnd fuel s q hpol hq (by omega)] at hres
      cases hres

/-! ## The invariant of the interleaved system -/

theorem inv_init : Inv Sys.init [] where
  queue := by decide
  count := rfl
  tokens := rfl
  held_nodup := List.nodup_nil
  held_fresh := by intro p hp; cases hp
  serving_nodup := List.nodup_nil
  serving_out := by intro p hp; cases hp

theorem queue_congr (s s2 : State) (q : List Ptr) (hm : s2.mem = s.mem)
    (hh : s2.req_head = s.req_head) (ht : s2.req_tail = s.req_tail) (hq : Queue s q) :
    Queue s2 q := by
  unfold Queue at *
  rw [hm, hh, ht]
  exact hq

theorem queue_frame (s : State) (mem2 : Mem) (q : List Ptr)
    (hsame : ∀ b ∈ q, mem2 b = s.mem b) (hq : Queue s q) :
    Queue { s with mem := mem2 } q :=
  ⟨seg_frame _ _ _ _ _ hsame hq.1, hq.2⟩

theorem step_inv (cfg : Config)
    (hpol : cfg.scheduling_algo = 0 ∨ cfg.scheduling_algo = 1 ∨ cfg.scheduling_algo = 2)
    (s s2 : Sys) (e : Event) (q : List Ptr) (hinv : Inv s q) (hstep : Step cfg s e s2) :
    ∃ q2, Inv s2 q2 ∧ queue_effect cfg.scheduling_algo e q q2 ∧
      (q2.length : Int) ≤ max (q.length : Int) cfg.buffer_max_size := by
  have halloc : ∀ b ∈ q, s.st.mem b ≠ none := by
    intro b hb
    obtain ⟨n, hn⟩ := seg_alloc _ _ _ _ hinv.queue.1 b hb
    simp [hn]
  cases hstep with
  | alloc p n hfree =>
    refine ⟨q, ?_, rfl, le_max_left _ _⟩
    have hne : ∀ b, s.st.mem b ≠ none → store_new s.st.mem p n b = s.st.mem b := by
      intro b hb
      have : b ≠ p := fun h => hb (h ▸ hfree)
      simp [store_new, this]
    exact {
      queue := queue_frame _ _ _ (fun b hb => hne b (halloc b hb)) hinv.queue
      count := hinv.count
      tokens := hinv.tokens
      held_nodup := by
        refine List.nodup_cons.2 ⟨fun hp => ?_, hinv.held_nodup⟩
        obtain ⟨_, _, n2, hn2, _⟩ := hinv.held_fresh p hp
        simp [hfree] at hn2
      held_fresh := by
        intro x hx
        rcases List.mem_cons.1 hx with rfl | hx
        · refine ⟨fun h => halloc _ h hfree, fun h => (hinv.serving_out _ h).2 hfree, ?_⟩
          exact ⟨{ n with next := none }, by simp [store_new], rfl⟩
        · obtain ⟨h1, h2, n2, hn2, h3⟩ := hinv.held_fresh x hx
          refine ⟨h1, h2, n2, ?_, h3⟩
          show store_new s.st.mem p n x = some n2
          rw [hne x (by simp [hn2]), hn2]
      serving_nodup := hinv.serving_nodup
      serving_out := by
        intro x hx
        obtain ⟨h1, h2⟩ := hinv.serving_out x hx
        refine ⟨h1, ?_⟩
        show store_new s.st.mem p n x ≠ none
        rw [hne x h2]
        exact h2 }
  | enq p st2 hheld hcap henq =>
    obtain ⟨hpq, hps, n, hn, hnext⟩ := hinv.held_fresh p hheld
    obtain ⟨st3, h1, h2, h3, h4, _, h6⟩ := enqueue_spec s.st q p n hinv.queue hn hnext hpq
    rw [h1] at henq
    cases henq
    refine ⟨q ++ [p], ?_, rfl, ?_⟩
    · exact {
        queue := h2
        count := by
          show st2.req_count = _
          rw [h3, hinv.count]
          simp
        tokens := by
          show st2.req_sem + s.woken + (s.posting + 1) = _
          rw [h4]
          have := hinv.tokens
          simp
          omega
        held_nodup := hinv.held_nodup.erase p
        held_fresh := by
          intro x hx
          have hx2 := (List.Nodup.mem_erase_iff hinv.held_nodup).1 hx
          obtain ⟨g1, g2, n2, hn2, g3⟩ := hinv.held_fresh x hx2.2
          refine ⟨by simp [g1, hx2.1], g2, n2, ?_, g3⟩
          show st2.mem x = some n2
          rw [h6 x g1, hn2]
        serving_nodup := hinv.serving_nodup
        serving_out := by
          intro x hx
          obtain ⟨g1, g2⟩ := hinv.serving_out x hx
          have : x ≠ p := fun h => hps (h ▸ hx)
          refine ⟨by simp [g1, this], ?_⟩
          show st2.mem x ≠ none
          rw [h6 x g1]
          exact g2 }
    · have := hinv.count
      simp only [List.length_append, List.length_singleton, Nat.cast_add, Nat.cast_one]
      have h7 := le_max_right (q.length : Int) cfg.buffer_max_size
      omega
  | post hpos =>
    refine ⟨q, ?_, rfl, le_max_left _ _⟩
    exact {
      queue := queue_congr _ _ _ rfl rfl rfl hinv.queue
      count := hinv.count
      tokens := by
        show s.st.req_sem + 1 + s.woken + (s.posting - 1) = _
        have := hinv.tokens
        omega
      held_nodup := hinv.held_nodup
      held_fresh := hinv.held_fresh
      serving_nodup := hinv.serving_nodup
      serving_out := hinv.serving_out }
  | wait hpos =>
    refine ⟨q, ?_, rfl, le_max_left _ _⟩
    exact {
      queue := queue_congr _ _ _ rfl rfl rfl hinv.queue
      count := hinv.count
      tokens := by
        show s.st.req_sem - 1 + (s.woken + 1) + s.posting = _
        have := hinv.tokens
        omega
      held_nodup := hinv.held_nodup
      held_fresh := hinv.held_fresh
      serving_nodup := hinv.serving_nodup
      serving_out := hinv.serving_out }
  | deq now rnd fuel req st2 hpos hdeq =>
    have hne : q ≠ [] := by
      rintro rfl
      have := hinv.tokens
      simp at this
      omega
    unfold dequeue at hdeq
    cases hpick : pick_request cfg.scheduling_algo now rnd fuel s.st with
    | error err => rw [hpick] at hdeq; cases hdeq
    | ok r =>
      obtain ⟨req2, s1⟩ := r
      rw [hpick] at hdeq
      simp only [Except.ok.injEq, Prod.mk.injEq] at hdeq
      obtain ⟨rfl, rfl⟩ := hdeq
      obtain ⟨pre, a, post, rfl, hsplit, hrem, hfifo⟩ :=
        pick_request_inv _ _ _ _ _ q _ _ hpol hinv.queue hne hpick
      obtain ⟨hq2, hcnt, hsem, _, hmem⟩ := hrem
      have hnd : (pre ++ a :: post).Nodup := hsplit ▸ chain_nodup _ _ _ hinv.queue.1
      have hsub : ∀ x, x ∈ pre ++ post → x ∈ q := by
        intro x hx
        rw [hsplit]
        simp only [List.mem_append, List.mem_cons] at hx ⊢
        tauto
      have haq : a ∈ q := by rw [hsplit]; simp
      have hapre : a ∉ pre := by
        intro h
        rw [List.nodup_append] at hnd
        exact hnd.2.2 h (by simp)
      have hlen : q.length = (pre ++ post).length + 1 := by
        rw [hsplit]; simp; omega
      refine ⟨pre ++ post, ?_, ⟨pre, a, post, rfl, hsplit, rfl, hfifo⟩, ?_⟩
      · exact {
          queue := queue_congr _ _ _ rfl rfl rfl hq2
          count := by
            show s1.req_count - 1 = _
            rw [hcnt, hinv.count, hlen]
            simp
          tokens := by
            show s1.req_sem + (s.woken - 1) + s.posting = _
            rw [hsem]
            have := hinv.tokens
            omega
          held_nodup := hinv.held_nodup
          held_fresh := by
            intro x hx
            obtain ⟨g1, g2, n2, hn2, g3⟩ := hinv.held_fresh x hx
            refine ⟨fun h => g1 (hsub x h), ?_, n2, ?_, g3⟩
            · show x ∉ a :: s.serving
              simp only [List.mem_cons, not_or]
              exact ⟨fun h => g1 (h ▸ haq), g2⟩
            · show s1.mem x = some n2
              rw [hmem x (fun h => g1 (by rw [hsplit]; simp [h])), hn2]
          serving_nodup := by
            show (a :: s.serving).Nodup
            exact List.nodup_cons.2 ⟨fun h => (hinv.serving_out a h).1 haq, hinv.serving_nodup⟩
          serving_out := by
            intro x hx
            have hx : x ∈ a :: s.serving := hx
            rcases List.mem_cons.1 hx with rfl | hx
            · refine ⟨?_, ?_⟩
              · have := (List.nodup_middle.1 hnd)
                exact (List.nodup_cons.1 this).1
              · show s1.mem x ≠ none
                rw [hmem x hapre]
                exact halloc x haq
            · obtain ⟨g1, g2⟩ := hinv.serving_out x hx
              refine ⟨fun h => g1 (hsub x h), ?_⟩
              show s1.mem x ≠ none
              rw [hmem x (fun h => g1 (by rw [hsplit]; simp [h]))]
              exact g2 }
      · have := le_max_left (q.length : Int) cfg.buffer_max_size
        omega
  | free p hserv =>
    obtain ⟨hpq, _⟩ := hinv.serving_out p hserv
    have hne : ∀ b, b ≠ p → release s.st.mem p b = s.st.mem b := by
      intro b hb
      simp [release, hb]
    refine ⟨q, ?_, rfl, le_max_left _ _⟩
    exact {
      queue := queue_frame _ _ _ (fun b hb => hne b (fun h => hpq (h ▸ hb))) hinv.queue
      count := hinv.count
      tokens := hinv.tokens
      held_nodup := hinv.held_nodup
      held_fresh := by
        intro x hx
        obtain ⟨g1, g2, n2, hn2, g3⟩ := hinv.held_fresh x hx
        refine ⟨g1, fun h => g2 (List.mem_of_mem_erase h), n2, ?_, g3⟩
        show release s.st.mem p x = some n2
        rw [hne x (fun h => g2 (h ▸ hserv)), hn2]
      serving_nodup := hinv.serving_nodup.erase p
      serving_out := by
        intro x hx
        have hx2 := (List.Nodup.mem_erase_iff hinv.serving_nodup).1 hx
        obtain ⟨g1, g2⟩ := hinv.serving_out x hx2.2
        refine ⟨g1, ?_⟩
        show release s.st.mem p x ≠ none
        rw [hne x hx2.1]
        exact g2 }

/-! ## Executions -/

theorem enqueued_append (tr tr2 : List Event) :
    enqueued (tr ++ tr2) = enqueued tr ++ enqueued tr2 := by
  induction tr with
  | nil => rfl
  | cons e tr ih => cases e <;> simp [enqueued, ih]

theorem dequeued_append (tr tr2 : List Event) :
    dequeued (tr ++ tr2) = dequeued tr ++ dequeued tr2 := by
  induction tr with
  | nil => rfl
  | cons e tr ih =>
    cases e with
    | deq now rnd fuel req => cases req <;> simp [dequeued, ih]
    | _ => simp [dequeued, ih]

theorem deq_count_append (tr tr2 : List Event) :
    deq_count (tr ++ tr2) = deq_count tr + deq_count tr2 := by
  induction tr with
  | nil => simp [deq_count]
  | cons e tr ih =>
    cases e <;> simp [deq_count, ih]
    omega

theorem exec_cons (cfg : Config) (s t u : Sys) (e : Event) (tr : List Event)
    (hstep : Step cfg s e t) (hexec : Exec cfg t tr u) : Exec cfg s (e :: tr) u := by
  induction hexec with
  | nil => exact Exec.snoc (Exec.nil s) hstep
  | snoc _ h2 ih => exact @Exec.snoc cfg _ _ _ (e :: _) _ ih h2

theorem exec_append (cfg : Config) (s t u : Sys) (tr tr2 : List Event)
    (h1 : Exec cfg s tr t) (h2 : Exec cfg t tr2 u) : Exec cfg s (tr ++ tr2) u := by
  induction h2 with
  | nil => simpa using h1
  | snoc _ hstep ih => rw [← List.append_assoc]; exact Exec.snoc ih hstep

/-- Along an execution from a state that satisfies the invariant, the invariant
is kept, the queue never grows beyond the capacity, and the queue is what was
there or was linked, less what was returned. -/
theorem exec_inv (cfg : Config)
    (hpol : cfg.scheduling_algo = 0 ∨ cfg.scheduling_algo = 1 ∨ cfg.scheduling_algo = 2)
    (s0 s : Sys) (tr : List Event) (q0 : List Ptr) (hinv : Inv s0 q0)
    (hexec : Exec cfg s0 tr s) :
    ∃ q, Inv s q ∧ (q.length : Int) ≤ max (q0.length : Int) cfg.buffer_max_size ∧
      q0.length + (enqueued tr).length = deq_count tr + q.length ∧
      (cfg.scheduling_algo = 0 → q0 ++ enqueued tr = dequeued tr ++ q) := by
  induction hexec with
  | nil =>
    exact ⟨q0, hinv, le_max_left _ _, by simp [enqueued, deq_count], by simp [enqueued, dequeued]⟩
  | snoc _ hstep ih =>
    obtain ⟨q, h1, h2, h3, h4⟩ := ih
    obtain ⟨q2, g1, g2, g3⟩ := step_inv cfg hpol _ _ _ q h1 hstep
    refine ⟨q2, g1, le_trans g3 (max_le h2 (le_max_right _ _)), ?_, ?_⟩
    · rw [enqueued_append, deq_count_append]
      cases hstep with
      | enq p st2 _ _ _ =>
        simp only [queue_effect] at g2
        subst g2
        simp [enqueued, deq_count]
        omega
      | deq now rnd fuel req st2 _ _ =>
        simp only [queue_effect] at g2
        obtain ⟨pre, a, post, _, rfl, rfl, _⟩ := g2
        simp [enqueued, deq_count] at h3 ⊢
        omega
      | _ =>
        simp only [queue_effect] at g2
        subst g2
        simpa [enqueued, deq_count] using h3
    · intro hfifo
      have h4 := h4 hfifo
      rw [enqueued_append, dequeued_append]
      cases hstep with
      | enq p st2 _ _ _ =>
        simp only [queue_effect] at g2
        subst g2
        simp [enqueued, dequeued, ← List.append_assoc, h4]
      | deq now rnd fuel req st2 _ _ =>
        simp only [queue_effect] at g2
        obtain ⟨pre, a, post, rfl, rfl, rfl, hpre⟩ := g2
        rw [hpre hfifo] at h4 ⊢
        simp [enqueued, dequeued, h4]
      | _ =>
        simp only [queue_effect] at g2
        subst g2
        simpa [enqueued, dequeued] using h4

/-! ## The scheduler: claims C2, C3, C4, C5, C10 -/

/-- C2: for each of the three policies (0, 1, 2), every value of the clock and
every random draw, `pick_request` on a non-empty queue `q`, given fuel for one
pass over it, returns a node `a` of `q` and unlinks exactly that node: the queue
afterwards is `q` with the one position of `a` erased and the other nodes in
their order, one shorter, and `a` is no longer in it. The counters and the data
of all nodes, the returned one included, are untouched. -/
theorem pick_request_removes_exactly_one (scheduling_algo : Int) (now : Int)
    (rnd fuel : Nat) (s : State) (q : List Ptr)
    (hpol : scheduling_algo = 0 ∨ scheduling_algo = 1 ∨ scheduling_algo = 2)
    (hq : Queue s q) (hne : q ≠ []) (hfuel : q.length ≤ fuel) :
    ∃ pre a post s2,
      pick_request scheduling_algo now rnd fuel s = .ok (some a, s2) ∧
      q = pre ++ a :: post ∧ Queue s2 (pre ++ post) ∧
      (pre ++ post).length + 1 = q.length ∧ a ∈ q ∧ a ∉ pre ++ post ∧
      s2.req_count = s.req_count ∧ s2.req_sem = s.req_sem ∧
      SameData s.mem s2.mem ∧ s2.mem a = s.mem a := by
  obtain ⟨pre, a, post, s2, h1, h2, h3, _⟩ :=
    pick_request_spec scheduling_algo now rnd fuel s q hpol hq hne hfuel
  obtain ⟨g1, g2, g3, g4, g5⟩ := h3
  have hnd : (pre ++ a :: post).Nodup := h1 ▸ chain_nodup _ _ _ hq.1
  have hnd2 := List.nodup_cons.1 (List.nodup_middle.1 hnd)
  refine ⟨pre, a, post, s2, h2, h1, g1, ?_, ?_, hnd2.1, g2, g3, g4, ?_⟩
  · rw [h1]; simp; omega
  · rw [h1]; simp
  · apply g5
    intro h
    exact hnd2.1 (List.mem_append_left _ h)

theorem pick_request_removes_exactly_one_witness :
    (Queue (three_jobs (mk_node 30 0) (mk_node 10 0) (mk_node 20 0)) [1, 2, 3] ∧
     returned (pick_request 2 0 7 3 (three_jobs (mk_node 30 0) (mk_node 10 0) (mk_node 20 0)))
       = some 2) ∧
    ∃ pre a post s2,
      pick_request 2 0 7 3 (three_jobs (mk_node 30 0) (mk_node 10 0) (mk_node 20 0))
        = .ok (some a, s2) ∧
      [1, 2, 3] = pre ++ a :: post ∧ Queue s2 (pre ++ post) ∧
      (pre ++ post).length + 1 = [1, 2, 3].length ∧ a ∈ [1, 2, 3] ∧ a ∉ pre ++ post ∧
      s2.req_count = (three_jobs (mk_node 30 0) (mk_node 10 0) (mk_node 20 0)).req_count ∧
      s2.req_sem = (three_jobs (mk_node 30 0) (mk_node 10 0) (mk_node 20 0)).req_sem ∧
      SameData (three_jobs (mk_node 30 0) (mk_node 10 0) (mk_node 20 0)).mem s2.mem ∧
      s2.mem a = (three_jobs (mk_node 30 0) (mk_node 10 0) (mk_node 20 0)).mem a :=
  ⟨⟨by decide, by decide⟩,
   pick_request_removes_exactly_one 2 0 7 3 _ [1, 2, 3] (by decide) (by decide)
     (by decide) (by decide)⟩

/-- C4: under policy 1, on a non-empty queue in which no node has waited
`AGING_THRESHOLD` (10) or longer at the time `now` of the call, `pick_request`
returns the node `a` of smallest `file_size` in the whole queue, the earliest
such node: every node before `a` is strictly larger, every node after `a` is at
least as large. -/
theorem sff_without_aged_picks_first_smallest (now : Int) (rnd fuel : Nat) (s : State)
    (q : List Ptr) (hq : Queue s q) (hne : q ≠ []) (hfuel : q.length ≤ fuel)
    (hyoung : ∀ x ∈ q, age_of s.mem now x < AGING_THRESHOLD) :
    ∃ pre a post s2,
      pick_request 1 now rnd fuel s = .ok (some a, s2) ∧
      q = pre ++ a :: post ∧
      (∀ x ∈ pre, file_size_of s.mem a < file_size_of s.mem x) ∧
      (∀ x ∈ post, file_size_of s.mem a ≤ file_size_of s.mem x) ∧
      Queue s2 (pre ++ post) := by
  obtain ⟨h, t, rfl⟩ := List.exists_cons_of_ne_nil hne
  obtain ⟨pre, post, s2, h1, h2, h3⟩ := pick_sff_spec s now fuel h t hq hfuel
  have hh : ¬ age_of s.mem now h ≥ AGING_THRESHOLD := by
    have := hyoung h (by simp)
    omega
  have hch : sff_choice s.mem now h (h :: t) = sff_choice s.mem now h t := by
    simp [sff_choice, hh]
  obtain ⟨pre2, post2, g1, g2, g3⟩ :=
    sff_choice_min s.mem now t h (fun x hx => hyoung x (by simp [hx]))
  rw [hch] at h1 h2
  have hnd : (pre ++ sff_choice s.mem now h t :: post).Nodup :=
    h1 ▸ chain_nodup _ _ _ hq.1
  obtain ⟨e1, e2⟩ := split_unique pre pre2 post post2 _ hnd (h1.symm.trans g1)
  subst e1 e2
  exact ⟨pre, _, post, s2, by simp [pick_request, h2], h1, g2, g3, h3.1⟩

theorem sff_without_aged_picks_first_smallest_witness :
    (Queue (two_jobs (mk_node 1000 0) (mk_node 1 0)) [1, 2] ∧
     ∀ x ∈ [1, 2], age_of (two_jobs (mk_node 1000 0) (mk_node 1 0)).mem 0 x
        < AGING_THRESHOLD) ∧
    ∃ s2, pick_request 1 0 0 2 (two_jobs (mk_node 1000 0) (mk_node 1 0)) = .ok (some 2, s2) ∧
      file_size_of (two_jobs (mk_node 1000 0) (mk_node 1 0)).mem 2 = 1 ∧ Queue s2 [1] := by
  refine ⟨⟨by decide, by decide⟩, ?_⟩
  obtain ⟨pre, a, post, s2, h1, h2, _, _, h5⟩ :=
    sff_without_aged_picks_first_smallest 0 0 2 (two_jobs (mk_node 1000 0) (mk_node 1 0))
      [1, 2] (by decide) (by decide) (by decide) (by decide)
  have hr : returned (pick_request 1 0 0 2 (two_jobs (mk_node 1000 0) (mk_node 1 0)))
      = some 2 := by decide
  rw [h1] at hr
  simp only [returned, Option.some.injEq] at hr
  subst hr
  have hsplit := split_unique pre [1] post [] 2 (h2 ▸ by decide) (h2.symm.trans rfl)
  rw [hsplit.1, hsplit.2] at h5
  exact ⟨s2, h1, by decide, h5⟩

/-- C5, as the code behaves: under policy 1, for a two-node queue whose first
node has `file_size` 1000 and has waited 11 and whose second node has
`file_size` 500 and has waited 0, `pick_request` returns the second node: it is
not aged, but `500 < 1000` makes it override the aged first node, which stays
in the queue. -/
theorem sff_smaller_overrides_aged_first (now : Int) (rnd fuel : Nat) (s : State)
    (a b : Ptr) (n1 n2 : request_node) (hq : Queue s [a, b])
    (h1 : s.mem a = some n1) (h2 : s.mem b = some n2)
    (hsize1 : n1.file_size = 1000) (hage1 : now - n1.arrival = 11)
    (hsize2 : n2.file_size = 500) (hage2 : now - n2.arrival = 0)
    (hfuel : 2 ≤ fuel) :
    ∃ s2, pick_request 1 now rnd fuel s = .ok (some b, s2) ∧ Queue s2 [a] := by
  obtain ⟨pre, post, s2, g1, g2, g3⟩ := pick_sff_spec s now fuel a [b] hq hfuel
  have hch : sff_choice s.mem now a [a, b] = b := by
    simp [sff_choice, age_of, file_size_of, h1, h2, hsize1, hsize2, hage1, hage2,
      AGING_THRESHOLD]
  rw [hch] at g1 g2
  have hnd : ([a] ++ b :: []).Nodup := chain_nodup _ _ _ hq.1
  obtain ⟨e1, e2⟩ := split_unique [a] pre [] post b hnd g1
  subst e1 e2
  exact ⟨s2, by simp [pick_request, g2], g3.1⟩

theorem sff_smaller_overrides_aged_first_witness :
    Queue (two_jobs (mk_node 1000 0) (mk_node 500 11)) [1, 2] ∧
    ∃ s2, pick_request 1 11 0 2 (two_jobs (mk_node 1000 0) (mk_node 500 11))
        = .ok (some 2, s2) ∧ Queue s2 [1] :=
  ⟨by decide,
   sff_smaller_overrides_aged_first 11 0 2 (two_jobs (mk_node 1000 0) (mk_node 500 11)) 1 2
     { mk_node 1000 0 with next := some 2 } (mk_node 500 11)
     (by decide) rfl rfl rfl (by decide) rfl (by decide) (by decide)⟩

/-- C5 as stated fails: with the first node of size 1000 waiting 11 and the
second of size 500 waiting 0, `pick_request` does not return the first node. -/
theorem sff_aged_first_is_not_returned :
    ¬ ∃ s2, pick_request 1 11 0 2 (two_jobs (mk_node 1000 0) (mk_node 500 11))
        = .ok (some 1, s2) := by
  rintro ⟨s2, h⟩
  have hr : returned (pick_request 1 11 0 2 (two_jobs (mk_node 1000 0) (mk_node 500 11)))
      = some 2 := by decide
  rw [h] at hr
  simp [returned] at hr

/-- C10: under policy 1, when `l` is the last node of the queue that has waited
`AGING_THRESHOLD` (10) or longer (`before` are the nodes linked before it,
`after` those behind it, none of them aged), `pick_request` returns the node `a`
of smallest `file_size` among `l` and `after`, the earliest of them on ties, and
never a node of `before`, whatever the sizes and waiting times there; the other
nodes stay in their order. When every node is aged, the last node of the queue
is returned. -/
theorem sff_with_aged_picks_from_last_aged (now : Int) (rnd fuel : Nat) (s : State)
    (before after : List Ptr) (l : Ptr)
    (hq : Queue s (before ++ l :: after))
    (hfuel : (before ++ l :: after).length ≤ fuel)
    (hl : age_of s.mem now l ≥ AGING_THRESHOLD)
    (hafter : ∀ x ∈ after, age_of s.mem now x < AGING_THRESHOLD) :
    ∃ pre a post s2,
      pick_request 1 now rnd fuel s = .ok (some a, s2) ∧
      l :: after = pre ++ a :: post ∧
      (∀ x ∈ pre, file_size_of s.mem a < file_size_of s.mem x) ∧
      (∀ x ∈ post, file_size_of s.mem a ≤ file_size_of s.mem x) ∧
      a ∉ before ∧
      Queue s2 (before ++ pre ++ post) ∧
      ((∀ x ∈ before ++ l :: after, age_of s.mem now x ≥ AGING_THRESHOLD) →
        some a = (before ++ l :: after).getLast?) := by
  have hne : before ++ l :: after ≠ [] := by simp
  obtain ⟨h, t, hht⟩ := List.exists_cons_of_ne_nil hne
  rw [hht] at hq hfuel
  obtain ⟨pre, post, s2, h1, h2, h3⟩ := pick_sff_spec s now fuel h t hq hfuel
  rw [← hht] at h1 h2 hq
  rw [sff_choice_aged s.mem now before after l hl h] at h1 h2
  obtain ⟨pre2, post2, g1, g2, g3⟩ := sff_choice_min s.mem now after l hafter
  have hnd : (before ++ l :: after).Nodup := chain_nodup _ _ _ hq.1
  have hsplit : pre ++ sff_choice s.mem now l after :: post =
      (before ++ pre2) ++ sff_choice s.mem now l after :: post2 := by
    rw [← h1, g1]; simp
  obtain ⟨e1, e2⟩ := split_unique pre (before ++ pre2) post post2 _ (h1 ▸ hnd) hsplit
  subst e1 e2
  refine ⟨pre2, _, post, s2, by simp [pick_request, h2], g1, g2, g3, ?_, h3.1, ?_⟩
  · intro hmem
    rw [h1] at hnd
    rw [List.append_assoc, List.nodup_append] at hnd
    exact hnd.2.2 hmem (by simp)
  · intro hall
    cases after with
    | nil => simp [sff_choice]
    | cons c cs =>
      have h4 := hafter c (by simp)
      have h5 := hall c (by simp)
      omega

theorem sff_with_aged_picks_from_last_aged_witness :
    (Queue (three_jobs (mk_node 1 0) (mk_node 1000 10) (mk_node 500 20)) ([1] ++ 2 :: [3]) ∧
     age_of (three_jobs (mk_node 1 0) (mk_node 1000 10) (mk_node 500 20)).mem 20 2
        ≥ AGING_THRESHOLD ∧
     returned (pick_request 1 20 0 3
        (three_jobs (mk_node 1 0) (mk_node 1000 10) (mk_node 500 20))) = some 3) ∧
    ∃ pre a post s2,
      pick_request 1 20 0 3 (three_jobs (mk_node 1 0) (mk_node 1000 10) (mk_node 500 20))
        = .ok (some a, s2) ∧
      2 :: [3] = pre ++ a :: post ∧
      (∀ x ∈ pre, file_size_of (three_jobs (mk_node 1 0) (mk_node 1000 10) (mk_node 500 20)).mem a
        < file_size_of (three_jobs (mk_node 1 0) (mk_node 1000 10) (mk_node 500 20)).mem x) ∧
      (∀ x ∈ post, file_size_of (three_jobs (mk_node 1 0) (mk_node 1000 10) (mk_node 500 20)).mem a
        ≤ file_size_of (three_jobs (mk_node 1 0) (mk_node 1000 10) (mk_node 500 20)).mem x) ∧
      a ∉ [1] ∧
      Queue s2 ([1] ++ pre ++ post) ∧
      ((∀ x ∈ [1] ++ 2 :: [3],
          age_of (three_jobs (mk_node 1 0) (mk_node 1000 10) (mk_node 500 20)).mem 20 x
            ≥ AGING_THRESHOLD) →
        some a = ([1] ++ 2 :: [3]).getLast?) :=
  ⟨⟨by decide, by decide, by decide⟩,
   sff_with_aged_picks_from_last_aged 20 0 3
     (three_jobs (mk_node 1 0) (mk_node 1000 10) (mk_node 500 20)) [1] [3] 2
     (by decide) (by decide) (by decide) (by decide)⟩

/-! ## The interleaved system: claims C6, C7, C8, C1 -/

theorem reachable_inv (cfg : Config)
    (hpol : cfg.scheduling_algo = 0 ∨ cfg.scheduling_algo = 1 ∨ cfg.scheduling_algo = 2)
    (s : Sys) (hreach : Reachable cfg s) :
    ∃ q, Inv s q ∧ (q.length : Int) ≤ max 0 cfg.buffer_max_size := by
  obtain ⟨tr, hexec⟩ := hreach
  obtain ⟨q, h1, h2, _, _⟩ := exec_inv cfg hpol Sys.init s tr [] inv_init hexec
  exact ⟨q, h1, by simpa using h2⟩

theorem wake_run_exec : Exec ⟨1, 1⟩ Sys.init wake_run wake_state :=
  exec_cons _ _ _ _ _ _ (Step.alloc _ 1 (mk_node 10 0) rfl)
    (exec_cons _ _ _ _ _ _ (Step.enq _ 1 _ (by decide) (by decide) rfl)
    (exec_cons _ _ _ _ _ _ (Step.post _ (by decide))
    (exec_cons _ _ _ _ _ _ (Step.wait _ (by decide)) (Exec.nil wake_state))))

/-- C6: for every capacity `buffer_max_size >= 1` and each of the three
policies, in every state reachable from the initial state by the steps of
producers and workers, `0 <= req_count <= buffer_max_size` and `req_count` is
the number of nodes linked in the queue. -/
theorem req_count_invariant (cfg : Config) (hcap : 1 ≤ cfg.buffer_max_size)
    (hpol : cfg.scheduling_algo = 0 ∨ cfg.scheduling_algo = 1 ∨ cfg.scheduling_algo = 2)
    (s : Sys) (hreach : Reachable cfg s) :
    0 ≤ s.st.req_count ∧ s.st.req_count ≤ cfg.buffer_max_size ∧
      ∃ q, Queue s.st q ∧ s.st.req_count = (q.length : Int) := by
  obtain ⟨q, hinv, hlen⟩ := reachable_inv cfg hpol s hreach
  rw [max_eq_right (by omega)] at hlen
  have := hinv.count
  exact ⟨by omega, by omega, q, hinv.queue, hinv.count⟩

theorem req_count_invariant_witness :
    Reachable ⟨1, 1⟩ wake_state ∧
      (0 ≤ wake_state.st.req_count ∧ wake_state.st.req_count ≤ 1 ∧
        ∃ q, Queue wake_state.st q ∧ wake_state.st.req_count = (q.length : Int)) :=
  ⟨⟨_, wake_run_exec⟩,
    req_count_invariant ⟨1, 1⟩ (by decide) (by decide) wake_state ⟨_, wake_run_exec⟩⟩

/-- C7: in every reachable state of the interleaved system, for each of the
three policies, the outstanding wake-ups (`req_sem` plus the workers that have
passed `sem_wait` and not yet dequeued) do not exceed the number of nodes in the
queue. So when a worker is about to call `pick_request` the queue is not empty,
the call returns a node of the queue (given fuel for one pass), and every
dequeue step that is taken returned a node of the queue. -/
theorem wakeups_never_exceed_jobs (cfg : Config)
    (hpol : cfg.scheduling_algo = 0 ∨ cfg.scheduling_algo = 1 ∨ cfg.scheduling_algo = 2)
    (s : Sys) (hreach : Reachable cfg s) :
    ∃ q, Queue s.st q ∧ s.st.req_sem + s.woken ≤ q.length ∧
      (0 < s.woken →
        q ≠ [] ∧
        (∀ now rnd fuel, q.length ≤ fuel →
          ∃ a s2, a ∈ q ∧
            pick_request cfg.scheduling_algo now rnd fuel s.st = .ok (some a, s2)) ∧
        (∀ now rnd fuel req s2, Step cfg s (.deq now rnd fuel req) s2 →
          ∃ a, req = some a ∧ a ∈ q)) := by
  obtain ⟨q, hinv, _⟩ := reachable_inv cfg hpol s hreach
  have htok := hinv.tokens
  refine ⟨q, hinv.queue, by omega, fun hw => ?_⟩
  have hne : q ≠ [] := by
    rintro rfl
    simp at htok
    omega
  refine ⟨hne, ?_, ?_⟩
  · intro now rnd fuel hfuel
    obtain ⟨pre, a, post, s2, h1, h2, _, _⟩ :=
      pick_request_spec cfg.scheduling_algo now rnd fuel s.st q hpol hinv.queue hne hfuel
    exact ⟨a, s2, by rw [h1]; simp, h2⟩
  · intro now rnd fuel req s2 hstep
    obtain ⟨q2, _, heff, _⟩ := step_inv cfg hpol s s2 _ q hinv hstep
    simp only [queue_effect] at heff
    obtain ⟨pre, a, post, h1, h2, _, _⟩ := heff
    exact ⟨a, h1, by rw [h2]; simp⟩

theorem wakeups_never_exceed_jobs_witness :
    Reachable ⟨1, 1⟩ wake_state ∧
      ∃ q, Queue wake_state.st q ∧ wake_state.st.req_sem + wake_state.woken ≤ q.length ∧
        (0 < wake_state.woken →
          q ≠ [] ∧
          (∀ now rnd fuel, q.length ≤ fuel →
            ∃ a s2, a ∈ q ∧ pick_request 1 now rnd fuel wake_state.st = .ok (some a, s2)) ∧
          (∀ now rnd fuel req s2, Step ⟨1, 1⟩ wake_state (.deq now rnd fuel req) s2 →
            ∃ a, req = some a ∧ a ∈ q)) :=
  ⟨⟨_, wake_run_exec⟩,
    wakeups_never_exceed_jobs ⟨1, 1⟩ (by decide) wake_state ⟨_, wake_run_exec⟩⟩

theorem held_kept (cfg : Config) (s s2 : Sys) (tr : List Event)
    (hexec : Exec cfg s tr s2) (hno : enqueued tr = []) :
    ∀ p ∈ s.held, p ∈ s2.held := by
  induction hexec with
  | nil => exact fun _ h => h
  | snoc _ hstep ih =>
    rw [enqueued_append] at hno
    have hno2 := List.append_eq_nil.1 hno
    intro p hp
    have hp2 := ih hno2.1 p hp
    cases hstep with
    | alloc p2 n _ => exact List.mem_cons_of_mem _ hp2
    | enq p2 st2 _ _ _ => simp [enqueued] at hno2
    | _ => exact hp2

theorem can_dequeue (cfg : Config)
    (hpol : cfg.scheduling_algo = 0 ∨ cfg.scheduling_algo = 1 ∨ cfg.scheduling_algo = 2)
    (s : Sys) (q : List Ptr) (hinv : Inv s q) (hne : q ≠ []) :
    ∃ tr s2, Exec cfg s tr s2 ∧ enqueued tr = [] ∧ deq_count tr = 1 := by
  have hdeq : ∀ t : Sys, Queue t.st q → 0 < t.woken →
      ∃ req st2, Step cfg t (.deq 0 0 q.length req)
        { t with st := st2, woken := t.woken - 1, serving := req.toList ++ t.serving } := by
    intro t hq hw
    obtain ⟨pre, a, post, s2, _, h2, _, _⟩ :=
      pick_request_spec cfg.scheduling_algo 0 0 q.length t.st q hpol hq hne (le_refl _)
    have h3 : dequeue cfg.scheduling_algo 0 0 q.length t.st =
        .ok (some a, { s2 with req_count := s2.req_count - 1 }) := by
      simp [dequeue, h2]
    exact ⟨some a, _, Step.deq t 0 0 q.length (some a) _ hw h3⟩
  have hwait : ∀ t : Sys, Queue t.st q → 0 < t.st.req_sem →
      ∃ tr s2, Exec cfg t tr s2 ∧ enqueued tr = [] ∧ deq_count tr = 1 := by
    intro t hq hs
    obtain ⟨req, st2, hstep⟩ := hdeq
      { t with st := { t.st with req_sem := t.st.req_sem - 1 }, woken := t.woken + 1 }
      (queue_congr _ _ _ rfl rfl rfl hq) (Nat.succ_pos _)
    exact ⟨_, _, exec_cons _ _ _ _ _ _ (Step.wait t hs)
      (exec_cons _ _ _ _ _ _ hstep (Exec.nil _)), rfl, rfl⟩
  have htok := hinv.tokens
  have hpos : 0 < q.length := List.length_pos.2 hne
  by_cases hw : 0 < s.woken
  · obtain ⟨req, st2, hstep⟩ := hdeq s hinv.queue hw
    exact ⟨_, _, exec_cons _ _ _ _ _ _ hstep (Exec.nil _), rfl, rfl⟩
  · by_cases hs : 0 < s.st.req_sem
    · exact hwait s hinv.queue hs
    · have hp : 0 < s.posting := by omega
      obtain ⟨tr, s2, h1, h2, h3⟩ := hwait { s with st := sem_post s.st, posting := s.posting - 1 }
        (queue_congr _ _ _ rfl rfl rfl hinv.queue) (Nat.succ_pos _)
      exact ⟨_, s2, exec_cons _ _ _ _ _ _ (Step.post s hp) h1, by simpa [enqueued] using h2,
        by simpa [deq_count] using h3⟩

theorem request_handle_full (buffer_max_size : Int) (env : Env) (fd : Int)
    (method uri version : List Char) (s : State) (q : List Ptr)
    (hfull : buffer_max_size ≤ s.req_count) (hq : Queue s q)
    (hmalloc : ∀ p, env.malloc = some p → s.mem p = none) :
    ∃ out st2, request_handle buffer_max_size env fd method uri version s = .ok (out, st2) ∧
      (∀ p, out ≠ .queued p) ∧ Queue st2 q ∧ st2.req_count = s.req_count ∧
      st2.req_sem = s.req_sem ∧ (∀ p, out = .waiting p → st2.mem p ≠ none) := by
  have hsame : ∀ o : Outcome, (∀ p, o ≠ .queued p) → (∀ p, o ≠ .waiting p) →
      ∃ out st2, (Except.ok (o, s) : Except Fault (Outcome × State)) = .ok (out, st2) ∧
        (∀ p, out ≠ .queued p) ∧ Queue st2 q ∧ st2.req_count = s.req_count ∧
        st2.req_sem = s.req_sem ∧ (∀ p, out = .waiting p → st2.mem p ≠ none) :=
    fun o h1 h2 => ⟨o, s, rfl, h1, hq, rfl, rfl, fun p hp => absurd hp (h2 p)⟩
  unfold request_handle
  split
  · exact hsame _ (by simp) (by simp)
  · split
    split
    · exact hsame _ (by simp) (by simp)
    · split
      · split
        · exact hsame _ (by simp) (by simp)
        · split
          · exact hsame _ (by simp) (by simp)
          · split
            · exact hsame _ (by simp) (by simp)
            · rename_i req_new hm
              have hfresh := hmalloc req_new hm
              simp only [ge_iff_le, hfull, if_true]
              refine ⟨_, _, rfl, by simp, ?_, rfl, rfl, ?_⟩
              · refine queue_frame s _ q (fun b hb => ?_) hq
                obtain ⟨n, hn⟩ := seg_alloc _ _ _ _ hq.1 b hb
                have : b ≠ req_new := fun h => by rw [h, hfresh] at hn; cases hn
                simp [store_new, this]
              · intro p hp
                simp only [Outcome.waiting.injEq] at hp
                subst hp
                simp [store_new]
      · exact hsame _ (by simp) (by simp)

theorem full_run_exec : Exec ⟨1, 0⟩ Sys.init full_run full_state :=
  exec_cons _ _ _ _ _ _ (Step.alloc _ 1 (mk_node 10 0) rfl)
    (exec_cons _ _ _ _ _ _ (Step.enq _ 1 _ (by decide) (by decide) rfl)
    (exec_cons _ _ _ _ _ _ (Step.alloc _ 2 (mk_node 20 0) rfl) (Exec.nil full_state)))

theorem fill_queue (cfg : Config)
    (hpol : cfg.scheduling_algo = 0 ∨ cfg.scheduling_algo = 1 ∨ cfg.scheduling_algo = 2)
    (n : Nat) (hn : (n : Int) ≤ cfg.buffer_max_size) :
    ∃ tr s q, Exec cfg Sys.init tr s ∧ (enqueued tr).length = n ∧ deq_count tr = 0 ∧
      (∀ p, n < p → s.st.mem p = none) ∧ s.held = [] ∧ Inv s q ∧ q.length = n := by
  induction n with
  | zero => exact ⟨[], Sys.init, [], Exec.nil _, rfl, rfl, fun _ _ => rfl, rfl, inv_init, rfl⟩
  | succ n ih =>
    obtain ⟨tr, s, q, hexec, h1, h2, h3, h4, hinv, h5⟩ := ih (by push_cast at hn; omega)
    have hstep1 : Step cfg s (.alloc (n + 1) (mk_node 0 0))
        { s with st := { s.st with mem := store_new s.st.mem (n + 1) (mk_node 0 0) },
                 held := (n + 1) :: s.held } :=
      Step.alloc s (n + 1) (mk_node 0 0) (h3 _ (Nat.lt_succ_self n))
    generalize ({ s with st := { s.st with mem := store_new s.st.mem (n + 1) (mk_node 0 0) },
                         held := (n + 1) :: s.held } : Sys) = s1 at hstep1
    obtain ⟨q1, hinv1, heff1, _⟩ := step_inv cfg hpol _ _ _ q hinv hstep1
    simp only [queue_effect] at heff1
    subst heff1
    have hs1 : s1.held = [n + 1] ∧ s1.st.req_count = s.st.req_count ∧
        ∀ p, p ≠ n + 1 → s1.st.mem p = s.st.mem p := by
      cases hstep1 with
      | alloc _ _ _ => exact ⟨by simp [h4], rfl, fun p hp => by simp [store_new, hp]⟩
    have hmem1 : n + 1 ∈ s1.held := by rw [hs1.1]; simp
    obtain ⟨hpq, _, nd, hnd, hnext⟩ := hinv1.held_fresh (n + 1) hmem1
    obtain ⟨st2, g1, _, _, _, g5, _⟩ :=
      enqueue_spec s1.st q1 (n + 1) nd hinv1.queue hnd hnext hpq
    have hcount : s1.st.req_count < cfg.buffer_max_size := by
      have := hinv.count
      rw [hs1.2.1]
      push_cast at hn
      omega
    have hstep2 := Step.enq s1 (n + 1) st2 hmem1 hcount g1
    obtain ⟨q2, hinv2, heff2, _⟩ := step_inv cfg hpol _ _ _ q1 hinv1 hstep2
    simp only [queue_effect] at heff2
    subst heff2
    refine ⟨(tr ++ [.alloc (n + 1) (mk_node 0 0)]) ++ [.enq (n + 1)], _, q1 ++ [n + 1],
      Exec.snoc (Exec.snoc hexec hstep1) hstep2, ?_, ?_, ?_, ?_, hinv2, by simp [h5]⟩
    · simp [enqueued_append, enqueued, h1]
    · simp [deq_count_append, deq_count, h2]
    · intro p hp
      show st2.mem p = none
      rw [sameData_none _ _ g5 p, hs1.2.2 p (by omega)]
      exact h3 p (by omega)
    · show s1.held.erase (n + 1) = []
      rw [hs1.1]
      simp

/-- C8: for every capacity `C = buffer_max_size >= 1` and each of the three
policies, the initial state can be followed by steps that link `C` nodes and
dequeue none; in every state so reached the queue holds `C` nodes and
`req_count = C`; no enqueue step is enabled, and every call of `request_handle`
there ends without linking a node: it changes neither the queue nor the
counters, and when it reaches the wait loop its node stays allocated. A dequeue can happen; after any
steps from there that dequeue once and link nothing, the nodes of the blocked
producers are still theirs, and for each node `p` so held the enqueue step is
enabled and completes, with `p` appended at the tail and `req_count` back at
`C`. -/
theorem backpressure (cfg : Config) (hcap : 1 ≤ cfg.buffer_max_size)
    (hpol : cfg.scheduling_algo = 0 ∨ cfg.scheduling_algo = 1 ∨ cfg.scheduling_algo = 2) :
    (∃ tr s, Exec cfg Sys.init tr s ∧
      ((enqueued tr).length : Int) = cfg.buffer_max_size ∧ deq_count tr = 0) ∧
    ∀ (tr : List Event) (s : Sys), Exec cfg Sys.init tr s →
      ((enqueued tr).length : Int) = cfg.buffer_max_size → deq_count tr = 0 →
      ∃ q, Queue s.st q ∧ (q.length : Int) = cfg.buffer_max_size ∧
        s.st.req_count = cfg.buffer_max_size ∧
        (∀ p s2, ¬ Step cfg s (.enq p) s2) ∧
        (∀ env fd method uri version,
          (∀ p, env.malloc = some p → s.st.mem p = none) →
          ∃ out st2,
            request_handle cfg.buffer_max_size env fd method uri version s.st
              = .ok (out, st2) ∧
            (∀ p, out ≠ .queued p) ∧ Queue st2 q ∧ st2.req_count = s.st.req_count ∧
            st2.req_sem = s.st.req_sem ∧ (∀ p, out = .waiting p → st2.mem p ≠ none)) ∧
        (∃ tr2 s1, Exec cfg s tr2 s1 ∧ enqueued tr2 = [] ∧ deq_count tr2 = 1) ∧
        (∀ tr2 s1, Exec cfg s tr2 s1 → enqueued tr2 = [] → deq_count tr2 = 1 →
          (∀ p ∈ s.held, p ∈ s1.held) ∧
          ∃ q1, Queue s1.st q1 ∧ q1.length + 1 = q.length ∧
            ∀ p ∈ s1.held, ∃ s2, Step cfg s1 (.enq p) s2 ∧ Queue s2.st (q1 ++ [p]) ∧
              s2.st.req_count = cfg.buffer_max_size) := by
  refine ⟨?_, ?_⟩
  · obtain ⟨tr, s, q, h1, h2, h3, _⟩ :=
      fill_queue cfg hpol cfg.buffer_max_size.toNat (by omega)
    exact ⟨tr, s, h1, by omega, h3⟩
  intro tr s hexec hfull hnodeq
  obtain ⟨q, hinv, _, hlen, _⟩ := exec_inv cfg hpol Sys.init s tr [] inv_init hexec
  have hcount := hinv.count
  have hq : (q.length : Int) = cfg.buffer_max_size := by
    rw [← hfull]
    simp only [List.length_nil, zero_add, hnodeq] at hlen
    rw [hlen]
  have hne : q ≠ [] := by
    rintro rfl
    simp at hq
    omega
  refine ⟨q, hinv.queue, hq, by omega, ?_, ?_, can_dequeue cfg hpol s q hinv hne, ?_⟩
  · intro p s2 hstep
    cases hstep with
    | enq _ _ _ hlt _ => omega
  · intro env fd method uri version hmalloc
    exact request_handle_full _ env fd method uri version s.st q (by omega)
      hinv.queue hmalloc
  · intro tr2 s1 hexec2 hno hone
    refine ⟨held_kept cfg s s1 tr2 hexec2 hno, ?_⟩
    obtain ⟨q1, hinv1, _, hlen1, _⟩ := exec_inv cfg hpol s s1 tr2 q hinv hexec2
    rw [hno, hone] at hlen1
    simp only [List.length_nil, add_zero] at hlen1
    refine ⟨q1, hinv1.queue, by omega, ?_⟩
    intro p hp
    obtain ⟨hpq, _, n, hn, hnext⟩ := hinv1.held_fresh p hp
    obtain ⟨st2, h1, h2, h3, _⟩ := enqueue_spec s1.st q1 p n hinv1.queue hn hnext hpq
    have hc1 := hinv1.count
    refine ⟨_, Step.enq s1 p st2 hp (by omega) h1, h2, ?_⟩
    show st2.req_count = _
    rw [h3]
    omega

theorem backpressure_witness :
    (Exec ⟨1, 0⟩ Sys.init full_run full_state ∧
      ((enqueued full_run).length : Int) = 1 ∧ deq_count full_run = 0 ∧
      outcome (request_handle 1 env_index 3 "GET".toList "/index.html".toList
        "HTTP/1.0".toList full_state.st) = some (.waiting 7)) ∧
      ∃ q, Queue full_state.st q ∧ (q.length : Int) = 1 ∧ full_state.st.req_count = 1 ∧
        (∀ p s2, ¬ Step ⟨1, 0⟩ full_state (.enq p) s2) ∧
        (∀ env fd method uri version,
          (∀ p, env.malloc = some p → full_state.st.mem p = none) →
          ∃ out st2,
            request_handle 1 env fd method uri version full_state.st = .ok (out, st2) ∧
            (∀ p, out ≠ .queued p) ∧ Queue st2 q ∧ st2.req_count = full_state.st.req_count ∧
            st2.req_sem = full_state.st.req_sem ∧
            (∀ p, out = .waiting p → st2.mem p ≠ none)) ∧
        (∃ tr2 s1, Exec ⟨1, 0⟩ full_state tr2 s1 ∧ enqueued tr2 = [] ∧ deq_count tr2 = 1) ∧
        (∀ tr2 s1, Exec ⟨1, 0⟩ full_state tr2 s1 → enqueued tr2 = [] → deq_count tr2 = 1 →
          (∀ p ∈ full_state.held, p ∈ s1.held) ∧
          ∃ q1, Queue s1.st q1 ∧ q1.length + 1 = q.length ∧
            ∀ p ∈ s1.held, ∃ s2, Step ⟨1, 0⟩ s1 (.enq p) s2 ∧ Queue s2.st (q1 ++ [p]) ∧
              s2.st.req_count = 1) :=
  ⟨⟨full_run_exec, by decide, by decide, by decide⟩,
    (backpressure ⟨1, 0⟩ (by decide) (by decide)).2 full_run full_state full_run_exec
      (by decide) (by decide)⟩

theorem abc_run_exec : ∃ s, Exec ⟨3, 0⟩ Sys.init abc_run s := by
  refine ⟨_, exec_cons _ _ _ _ _ _ (Step.alloc _ 1 (mk_node 10 0) rfl)
    (exec_cons _ _ _ _ _ _ (Step.enq _ 1 _ (by decide) (by decide) rfl)
    (exec_cons _ _ _ _ _ _ (Step.post _ (by decide))
    (exec_cons _ _ _ _ _ _ (Step.alloc _ 2 (mk_node 20 0) rfl)
    (exec_cons _ _ _ _ _ _ (Step.enq _ 2 _ (by decide) (by decide) rfl)
    (exec_cons _ _ _ _ _ _ (Step.post _ (by decide))
    (exec_cons _ _ _ _ _ _ (Step.alloc _ 3 (mk_node 30 0) rfl)
    (exec_cons _ _ _ _ _ _ (Step.enq _ 3 _ (by decide) (by decide) rfl)
    (exec_cons _ _ _ _ _ _ (Step.post _ (by decide))
    (exec_cons _ _ _ _ _ _ (Step.wait _ (by decide))
    (exec_cons _ _ _ _ _ _ (Step.deq _ 0 0 0 (some 1) _ (by decide) rfl)
    (exec_cons _ _ _ _ _ _ (Step.wait _ (by decide))
    (exec_cons _ _ _ _ _ _ (Step.deq _ 0 0 0 (some 2) _ (by decide) rfl)
    (exec_cons _ _ _ _ _ _ (Step.wait _ (by decide))
    (exec_cons _ _ _ _ _ _ (Step.deq _ 0 0 0 (some 3) _ (by decide) rfl)
      (Exec.nil _)))))))))))))))⟩

theorem run_fifo (ops : List Op) :
    ∀ (s : State) (q : List Ptr), Queue s q → (puts ops).Nodup →
      (∀ p ∈ puts ops, p ∉ q) →
      ∃ s2 out q2, run 0 ops s = .ok (s2, out) ∧ Queue s2 q2 ∧ q ++ puts ops = out ++ q2 := by
  induction ops with
  | nil =>
    intro s q hq _ _
    exact ⟨s, [], q, rfl, hq, by simp [puts]⟩
  | cons op ops ih =>
    intro s q hq hnd hfresh
    cases op with
    | put p n =>
      simp only [puts, List.nodup_cons] at hnd
      have hpq : p ∉ q := hfresh p (by simp [puts])
      have hq1 : Queue { s with mem := store_new s.mem p n } q := by
        refine queue_frame s _ q (fun b hb => ?_) hq
        have : b ≠ p := fun h => hpq (h ▸ hb)
        simp [store_new, this]
      obtain ⟨s1, h1, h2, _⟩ :=
        enqueue_spec { s with mem := store_new s.mem p n } q p { n with next := none } hq1
          (by simp [store_new]) rfl hpq
      obtain ⟨s2, out, q2, g1, g2, g3⟩ := ih s1 (q ++ [p]) h2 hnd.2 (by
        intro x hx
        have hx1 : x ∉ q := hfresh x (by simp [puts, hx])
        have hx2 : x ≠ p := fun h => hnd.1 (h ▸ hx)
        simp [hx1, hx2])
      refine ⟨s2, out, q2, ?_, g2, ?_⟩
      · simp only [run, h1, g1]
      · rw [← g3]
        simp [puts]
    | take now rnd fuel =>
      simp only [puts] at hnd hfresh ⊢
      cases q with
      | nil =>
        have h1 := pick_fifo_nil s hq
        have hq1 : Queue ⟨s.mem, none, none, s.req_count - 1, s.req_sem⟩ [] :=
          ⟨by simp [Chain, seg_nil_iff], by simp⟩
        obtain ⟨s2, out, q2, g1, g2, g3⟩ := ih _ [] hq1 hnd hfresh
        refine ⟨s2, out, q2, ?_, g2, g3⟩
        simp only [run, dequeue, pick_request, if_true, h1, g1]
        simp
      | cons a t =>
        obtain ⟨s1, h1, h2⟩ := pick_fifo_cons s a t hq
        have hq1 : Queue { s1 with req_count := s1.req_count - 1 } t :=
          queue_congr _ _ _ rfl rfl rfl h2.1
        obtain ⟨s2, out, q2, g1, g2, g3⟩ := ih _ t hq1 hnd
          (fun x hx h => hfresh x hx (List.mem_cons_of_mem _ h))
        refine ⟨s2, a :: out, q2, ?_, g2, ?_⟩
        · simp only [run, dequeue, pick_request, if_true, h1, g1]
          simp
        · simp [g3]

/-- C1: under policy 0, `pick_request` on a non-empty queue returns the head
node and leaves the rest of the queue in order, whatever the clock, the random
draw and the fuel, and the enqueue critical section appends its node at the
tail. Hence in every execution of the interleaved system from the initial state
the nodes returned by the dequeue steps followed by the nodes still queued are
the nodes linked, in the order they were linked: the k-th node returned is the
k-th node linked. In particular when `A`, `B`, `C` were linked in that order and
three dequeues returned a node, they returned `A`, `B`, `C` in that order. The
same holds for every sequence of enqueue and dequeue operations run one after
the other from the initial state with no regard to capacity or semaphore (a
dequeue on the empty queue returns no node): the sequence runs to its end, and
the nodes returned followed by the nodes still queued are the nodes linked. -/
theorem fifo_order :
    (∀ (s : State) (a : Ptr) (q : List Ptr) (now : Int) (rnd fuel : Nat),
      Queue s (a :: q) →
      ∃ s2, pick_request 0 now rnd fuel s = .ok (some a, s2) ∧ Queue s2 q ∧
        s2.mem = s.mem ∧ s2.req_count = s.req_count ∧ s2.req_sem = s.req_sem) ∧
    (∀ (s : State) (q : List Ptr) (p : Ptr) (n : request_node),
      Queue s q → s.mem p = some n → n.next = none → p ∉ q →
      ∃ s2, enqueue p s = .ok s2 ∧ Queue s2 (q ++ [p]) ∧
        s2.req_count = s.req_count + 1) ∧
    (∀ (cfg : Config) (tr : List Event) (s : Sys),
      cfg.scheduling_algo = 0 → Exec cfg Sys.init tr s →
      (∃ q, Queue s.st q ∧ enqueued tr = dequeued tr ++ q) ∧
      (∀ k, k < (dequeued tr).length → (dequeued tr)[k]? = (enqueued tr)[k]?) ∧
      (∀ A B C, enqueued tr = [A, B, C] → (dequeued tr).length = 3 →
        dequeued tr = [A, B, C])) ∧
    (∀ ops : List Op, (puts ops).Nodup →
      ∃ s out q, run 0 ops init = .ok (s, out) ∧ Queue s q ∧ puts ops = out ++ q ∧
        (∀ k, k < out.length → out[k]? = (puts ops)[k]?)) := by
  refine ⟨?_, ?_, ?_, ?_⟩
  · intro s a q now rnd fuel hq
    obtain ⟨s2, h1, h2⟩ := pick_fifo_cons s a q hq
    exact ⟨s2, by simp [pick_request, h1], h2.1, removed_mem_eq s s2 q h2, h2.2.1, h2.2.2.1⟩
  · intro s q p n hq hp hnext hfresh
    obtain ⟨s2, h1, h2, h3, _⟩ := enqueue_spec s q p n hq hp hnext hfresh
    exact ⟨s2, h1, h2, h3⟩
  · intro cfg tr s hfifo hexec
    obtain ⟨q, hinv, _, _, h4⟩ :=
      exec_inv cfg (Or.inl hfifo) Sys.init s tr [] inv_init hexec
    have h5 : enqueued tr = dequeued tr ++ q := by simpa using h4 hfifo
    refine ⟨⟨q, hinv.queue, h5⟩, ?_, ?_⟩
    · intro k hk
      rw [h5, List.getElem?_append_left hk]
    · intro A B C hABC hlen
      rw [hABC] at h5
      have hq : q = [] := by
        have := congrArg List.length h5
        simp [hlen] at this
        exact this
      rw [hq, List.append_nil] at h5
      exact h5.symm
  · intro ops hnd
    obtain ⟨s, out, q, h1, h2, h3⟩ :=
      run_fifo ops init [] (by decide) hnd (fun _ _ h => by cases h)
    simp only [List.nil_append] at h3
    refine ⟨s, out, q, h1, h2, h3, ?_⟩
    intro k hk
    rw [h3, List.getElem?_append_left hk]

theorem fifo_order_witness :
    (∃ s2, pick_request 0 5 9 0 (three_jobs (mk_node 30 0) (mk_node 10 0) (mk_node 20 0))
        = .ok (some 1, s2) ∧ Queue s2 [2, 3]) ∧
    (∃ s, Exec ⟨3, 0⟩ Sys.init abc_run s) ∧
    enqueued abc_run = [1, 2, 3] ∧ dequeued abc_run = [1, 2, 3] ∧
    (puts abc_ops).Nodup ∧
    ∃ s out q, run 0 abc_ops init = .ok (s, out) ∧ Queue s q ∧ puts abc_ops = out ++ q ∧
      (∀ k, k < out.length → out[k]? = (puts abc_ops)[k]?) := by
  obtain ⟨s, hexec⟩ := abc_run_exec
  obtain ⟨s2, h1, h2, _⟩ := fifo_order.1
    (three_jobs (mk_node 30 0) (mk_node 10 0) (mk_node 20 0)) 1 [2, 3] 5 9 0 (by decide)
  exact ⟨⟨s2, h1, h2⟩, ⟨s, hexec⟩, by decide,
    (fifo_order.2.2.1 ⟨3, 0⟩ abc_run s rfl hexec).2.2 1 2 3 (by decide) (by decide),
    by decide, fifo_order.2.2.2 abc_ops (by decide)⟩

/-! ## Admission: claim C9 -/

theorem char_toNat_inj (a b : Char) (h : a.toNat = b.toNat) : a = b := by
  rw [← Char.ofNat_toNat a, ← Char.ofNat_toNat b, h]

theorem tolower_toNat_ne_zero (c : Char) (h : c.toNat ≠ 0) : (tolower c).toNat ≠ 0 := by
  unfold tolower
  split
  · rename_i hc
    have h1 : 65 ≤ c.toNat := hc.1
    have h2 : c.toNat ≤ 90 := hc.2
    generalize c.toNat = n at h1 h2
    interval_cases n <;> decide
  · exact h

theorem strcasecmp_eq_zero_iff (a : List Char) :
    ∀ b : List Char, (∀ c ∈ a, c.toNat ≠ 0) → (∀ c ∈ b, c.toNat ≠ 0) →
      (strcasecmp a b = 0 ↔ a.map tolower = b.map tolower) := by
  induction a with
  | nil =>
    intro b _ hb
    cases b with
    | nil => simp [strcasecmp]
    | cons d ds =>
      have := tolower_toNat_ne_zero d (hb d (by simp))
      simp only [strcasecmp, List.map_nil, List.map_cons, reduceCtorEq, iff_false]
      omega
  | cons c cs ih =>
    intro b ha hb
    cases b with
    | nil =>
      have := tolower_toNat_ne_zero c (ha c (by simp))
      simp only [strcasecmp, List.map_nil, List.map_cons, reduceCtorEq, iff_false]
      omega
    | cons d ds =>
      simp only [strcasecmp, List.map_cons, List.cons.injEq]
      by_cases h : tolower c = tolower d
      · simp only [h, if_true, true_and]
        exact ih ds (fun x hx => ha x (by simp [hx])) (fun x hx => hb x (by simp [hx]))
      · simp only [h, if_false, false_and, iff_false]
        intro h0
        exact h (char_toNat_inj _ _ (by omega))

/-- C9, as the code behaves: `request_handle` compares the method token with
`GET` by `strcasecmp`. For every request line whose method token (a C string,
so without a NUL character) differs from `GET` even when the case of letters is
ignored (for example `POST`), whatever
the URI, the version, the file system, the allocator and the capacity, it
answers 501 with the method as cause and returns with all globals unchanged:
no node is built or linked, `req_count` and `req_sem` keep their values. -/
theorem other_method_gets_501 (buffer_max_size : Int) (env : Env) (fd : Int)
    (method uri version : List Char) (s : State)
    (hstr : ∀ c ∈ method, c.toNat ≠ 0)
    (hne : method.map tolower ≠ "get".toList) :
    request_handle buffer_max_size env fd method uri version s
      = .ok (.error "501".toList method, s) := by
  have h : strcasecmp method "GET".toList ≠ 0 := by
    intro h0
    have hget : ∀ c ∈ "GET".toList, c.toNat ≠ 0 := by decide
    have := (strcasecmp_eq_zero_iff method "GET".toList hstr hget).1 h0
    exact hne (this.trans (by decide))
  unfold request_handle
  rw [if_pos h]

theorem other_method_gets_501_witness :
    ((∀ c ∈ "POST".toList, c.toNat ≠ 0) ∧ "POST".toList.map tolower ≠ "get".toList) ∧
    request_handle 1 env_index 3 "POST".toList "/index.html".toList "HTTP/1.0".toList init
      = .ok (.error "501".toList "POST".toList, init) :=
  ⟨⟨by decide, by decide⟩,
   other_method_gets_501 1 env_index 3 "POST".toList "/index.html".toList
     "HTTP/1.0".toList init (by decide) (by decide)⟩

/-- C9 as stated fails: the method token `get` is not the token `GET`, yet for
the request line `get /index.html HTTP/1.0` and an existing readable file
`request_handle` answers no 501: it builds a node, links it and posts it. -/
theorem lowercase_get_is_queued :
    "get".toList ≠ "GET".toList ∧
    ∃ s2, request_handle 1 env_index 3 "get".toList "/index.html".toList
        "HTTP/1.0".toList init = .ok (.queued 7, s2) ∧
      Queue s2 [7] ∧ s2.req_count = 1 ∧ s2.req_sem = 1 := by
  refine ⟨by decide, _, rfl, ?_, ?_, ?_⟩
  · decide
  · decide
  · decide

end OSProj3
